import Mathlib

/-!
Verification of the core of `lp-system-monitor` (a terminal system monitor):
the metrics snapshot cache (`src/sys.rs`) and the interaction state machine
(`src/app.rs`), shallowly embedded in Lean.

Modelling conventions
* Rust strings are modelled as lists of Unicode code points (`List Nat`);
  `str::contains` is byte-wise substring search on UTF-8, which on valid UTF-8
  coincides with code-point-level substring search (a lead byte can never be
  confused with a continuation byte), so the model is faithful.
  `str::to_lowercase` / `char::to_lowercase` are modelled by ASCII lowercasing
  (no claim depends on non-ASCII case folding).
* `u64` / `u32` / `usize` values are modelled as `Nat`; `saturating_sub` is
  `Nat` subtraction.  `f32` / `f64` fields that no claim touches
  (`cpu_temp`, per-core percentages, `disk_read_rate`, `disk_write_rate`,
  sensors) are omitted; `cpu_global : f32` is modelled by the `u64` value the
  application pushes into its history (`self.sys.cpu_global as u64`), the only
  use a claim mentions.
* The external `sysinfo` provider is modelled by a `Sample` record holding the
  readings one `refresh` observes: cumulative network totals
  (`total_received`/`total_transmitted` sums), the provider's own per-interval
  delta sums (`received`/`transmitted` sums), the raw process table, memory,
  uptime and the cpu sample.
* `Vec::sort`/`sort_by` are stable sorts; any two stable sorts agree as
  functions, so they are modelled by a stable insertion sort (`sortByLe`),
  which the kernel can evaluate.
* Rust `HashMap<u32, _>` keyed by pid is modelled by association lookup over
  the table (`lookupPid`); the process tables handed over by `sysinfo` have
  pairwise distinct pids (the map is keyed by pid), which the tree theorems
  take as a hypothesis.
* `append_node` in the source is genuinely recursive with no fuel; its
  recursion from the roots computed by `build_process_tree` descends only
  along parent links inside the table, so a depth of `tbl.length` is never
  exceeded (proved below via `climb_depth_lt`); the embedding therefore gives
  it `tbl.length` fuel, which the lemmas show is never exhausted at any call
  site reached from `build_process_tree`.
-/

set_option linter.unusedVariables false

namespace SysMon

/-! ### Strings as lists of code points -/

/-- A Rust string, as its list of Unicode code points. -/
abbrev Str := List Nat

/-- Embed a Lean string literal as a `Str` (for concrete examples). -/
def str (s : String) : Str := s.data.map Char.toNat

/-- ASCII lowercasing of one code point; models `char::to_lowercase`
(restricted to ASCII, see the header). -/
def lowerCP (n : Nat) : Nat := if 65 ≤ n ∧ n ≤ 90 then n + 32 else n

/-- Models `str::to_lowercase`. -/
def toLower (s : Str) : Str := s.map lowerCP

/-- `isPrefixB needle hay`: `needle` is a prefix of `hay`. -/
def isPrefixB : Str → Str → Bool
  | [], _ => true
  | _ :: _, [] => false
  | a :: s, b :: t => a == b && isPrefixB s t

/-- Models `str::contains`: `strContains hay needle` is true iff `needle`
occurs contiguously inside `hay`. -/
def strContains : Str → Str → Bool
  | [], needle => isPrefixB needle []
  | c :: t, needle => isPrefixB needle (c :: t) || strContains t needle

/-- Structural worker for `natDigits`; the fuel only serves termination and
`natDigits` always supplies enough of it. -/
def natDigitsAux : Nat → Nat → Str
  | 0, _ => []
  | fuel + 1, n => if n < 10 then [48 + n] else natDigitsAux fuel (n / 10) ++ [48 + n % 10]

/-- The decimal digit string of a `Nat`; models `u32::to_string`
(`pid.to_string()`). -/
def natDigits (n : Nat) : Str := natDigitsAux (n + 1) n

/-! ### Stable sorting (models `Vec::sort` / `Vec::sort_by`) -/

/-- Stable insertion of `a` into a sorted list: `a` goes before the first
element `b` with `le a b` (so among `le`-equivalent elements the inserted,
originally-earlier element comes first — the stable behaviour). -/
def insertLe {α : Type} (le : α → α → Bool) (a : α) : List α → List α
  | [] => [a]
  | b :: t => if le a b then a :: b :: t else b :: insertLe le a t

/-- Stable insertion sort; extensionally equal to any stable sort with the
same total comparator, in particular to Rust's `sort`/`sort_by`. -/
def sortByLe {α : Type} (le : α → α → Bool) : List α → List α
  | [] => []
  | a :: t => insertLe le a (sortByLe le t)

/-! ### `src/sys.rs` — data model -/

/-- `ProcessInfo` from `src/sys.rs`.  `cpu : f32` is modelled as an `Int`
sample (no claim depends on float semantics). -/
structure ProcessInfo where
  pid : Nat
  name : Str
  user : Str
  cmd : Str
  cpu : Int
  mem_bytes : Nat
  parent : Option Nat
  indent : Nat
deriving DecidableEq

/-- `ProcessSort` from `src/sys.rs`. -/
inductive ProcessSort
  | Cpu
  | Memory
  | Pid
  | Tree
deriving DecidableEq

/-- Lookup of a pid in a process table; models `HashMap<u32, ProcessInfo>`
access (`process_map.get(&pid)` / `sys.process(pid)`), the map being keyed by
pid. -/
def lookupPid (tbl : List ProcessInfo) (x : Nat) : Option ProcessInfo :=
  tbl.find? (fun p => p.pid == x)

/-- The sorted child pids of `q`: `children_map` holds, under key `Some(q)`,
every table record whose `parent` field is `Some(q)`; `append_node` sorts the
bucket (`sorted_kids.sort()`) before descending. -/
def childrenOf (tbl : List ProcessInfo) (q : Nat) : List Nat :=
  sortByLe (fun a b => decide (a ≤ b))
    ((tbl.filter (fun p => p.parent == some q)).map (fun p => p.pid))

/-- Root test from `build_process_tree`: parent absent, or naming a pid not
present in the table. -/
def isRootB (tbl : List ProcessInfo) (p : ProcessInfo) : Bool :=
  match p.parent with
  | none => true
  | some pp => (lookupPid tbl pp).isNone

/-- The sorted root pids (`roots.sort()` in `build_process_tree`). -/
def rootsOf (tbl : List ProcessInfo) : List Nat :=
  sortByLe (fun a b => decide (a ≤ b))
    ((tbl.filter (fun p => isRootB tbl p)).map (fun p => p.pid))

/-- `append_node` from `src/sys.rs`: emit the record for `pid` with
`indent = depth`, then recurse into its sorted children.  The first argument
is fuel standing in for Rust's unbounded recursion (see the header note). -/
def appendNode (tbl : List ProcessInfo) : Nat → Nat → Nat → List ProcessInfo
  | 0, _, _ => []
  | fuel + 1, pid, depth =>
    match lookupPid tbl pid with
    | none => []
    | some p =>
      { p with indent := depth } ::
        (childrenOf tbl pid).flatMap (fun kid => appendNode tbl fuel kid (depth + 1))

/-- `build_process_tree` from `src/sys.rs`: depth-first emission of every
subtree, roots sorted ascending by pid. -/
def build_process_tree (tbl : List ProcessInfo) : List ProcessInfo :=
  (rootsOf tbl).flatMap (fun r => appendNode tbl tbl.length r 0)

/-- `top_processes` from `src/sys.rs` (the surviving three-argument revision):
map the raw table and order it by the active sort key; the `Tree` key first
sorts by pid, then hands over to `build_process_tree`.  The user-name /
command resolution of the raw entries happens provider-side in this model
(the `Sample` already carries `ProcessInfo` records). -/
def top_processes (table : List ProcessInfo) (sort_by : ProcessSort) : List ProcessInfo :=
  match sort_by with
  | ProcessSort.Cpu => sortByLe (fun a b => decide (b.cpu ≤ a.cpu)) table
  | ProcessSort.Memory => sortByLe (fun a b => decide (b.mem_bytes ≤ a.mem_bytes)) table
  | ProcessSort.Pid => sortByLe (fun a b => decide (a.pid ≤ b.pid)) table
  | ProcessSort.Tree =>
      build_process_tree (sortByLe (fun a b => decide (a.pid ≤ b.pid)) table)

/-! ### `src/sys.rs` — the snapshot cache -/

/-- One reading of the external metrics provider, as observed by a single
`refresh` call. -/
structure Sample where
  cpu_global : Nat
  total_memory : Nat
  available_memory : Nat
  uptime : Nat
  /-- sum of `total_received()` over the interfaces (cumulative). -/
  total_rx : Nat
  /-- sum of `total_transmitted()` over the interfaces (cumulative). -/
  total_tx : Nat
  /-- sum of `received()` over the interfaces (the provider's own
  per-interval delta). -/
  delta_rx : Nat
  /-- sum of `transmitted()` over the interfaces. -/
  delta_tx : Nat
  /-- the raw process table (`sys.processes()`), already mapped to
  `ProcessInfo` records. -/
  processes : List ProcessInfo
deriving DecidableEq

/-- `SysCache` from `src/sys.rs` (fields a claim touches; the float-valued
fields and the cpu-model strings are omitted, see the header).  `sys_table`
models the `sysinfo::System` process map that `kill_process` consults. -/
structure SysCache where
  cpu_global : Nat
  total_mem : Nat
  used_mem : Nat
  uptime : Nat
  rx_rate : Nat
  tx_rate : Nat
  prev_rx : Nat
  prev_tx : Nat
  sys_table : List ProcessInfo
  procs : List ProcessInfo
  sort_by : ProcessSort
deriving DecidableEq

/-- `SysCache::refresh`, ported statement by statement in source order.
The source contains two network-rate computations: first the
saturating-subtraction block guarded by `prev_rx > 0` / `prev_tx > 0`
(followed by the unconditional `prev := current` updates), and further down a
second, stale block that overwrites `rx_rate`/`tx_rate` with the provider's
own per-interval sums.  Both are reproduced here.  The second, stale
`top_processes` call is written with two arguments in the source and does not
type-check against the three-argument definition; it is modelled as the same
three-argument call. -/
def SysCache.refresh (s : SysCache) (inp : Sample) : SysCache :=
  let cpu_global := inp.cpu_global
  let total_mem := inp.total_memory
  let used_mem := total_mem - inp.available_memory
  let uptime := inp.uptime
  -- Network Rate (first block)
  let current_rx := inp.total_rx
  let current_tx := inp.total_tx
  let rx_rate1 := if 0 < s.prev_rx then current_rx - s.prev_rx else s.rx_rate
  let tx_rate1 := if 0 < s.prev_tx then current_tx - s.prev_tx else s.tx_rate
  let prev_rx := current_rx
  let prev_tx := current_tx
  -- Processes
  let procs1 := top_processes inp.processes s.sort_by
  -- second (stale) network block: overwrites the rates just computed
  let rx_rate := inp.delta_rx
  let tx_rate := inp.delta_tx
  -- second (stale) `top_processes` call
  let procs := top_processes inp.processes s.sort_by
  { cpu_global := cpu_global
    total_mem := total_mem
    used_mem := used_mem
    uptime := uptime
    rx_rate := rx_rate
    tx_rate := tx_rate
    prev_rx := prev_rx
    prev_tx := prev_tx
    sys_table := inp.processes
    procs := procs
    sort_by := s.sort_by }

/-- `SysCache::new`: zero-initialised fields (`rx_rate`/`tx_rate`/`prev_rx`/
`prev_tx` all 0, `sort_by: ProcessSort::Cpu`), followed by the one `refresh`
that `new` itself performs (`s.refresh(); s`). -/
def SysCache.new (inp : Sample) : SysCache :=
  let s : SysCache :=
    { cpu_global := 0
      total_mem := 0
      used_mem := 0
      uptime := 0
      rx_rate := 0
      tx_rate := 0
      prev_rx := 0
      prev_tx := 0
      sys_table := []
      procs := []
      sort_by := ProcessSort.Cpu }
  s.refresh inp

/-- `SysCache::kill_process`: kill only when the pid is present in the
system's process map; the returned value records which pid (if any) actually
received a kill signal.  The function always returns normally. -/
def SysCache.kill_process (s : SysCache) (pid : Nat) : Option Nat :=
  match lookupPid s.sys_table pid with
  | some _ => some pid
  | none => none

/-! ### `src/app.rs` — the interaction state machine -/

/-- `PopupState` from `src/app.rs`. -/
inductive PopupState
  | none
  | help
  | kill (pid : Nat) (name : Str)
deriving DecidableEq

/-- `InputMode` from `src/app.rs`. -/
inductive InputMode
  | normal
  | editing
  | popup
deriving DecidableEq

/-- The key codes `on_key` distinguishes (`crossterm::event::KeyCode`);
`char` carries the code point. -/
inductive KeyCode
  | char (c : Nat)
  | down
  | up
  | tab
  | esc
  | enter
  | backspace
  | other
deriving DecidableEq

/-- A key event: code plus whether the CONTROL modifier is held. -/
structure KeyEvent where
  code : KeyCode
  ctrl : Bool
deriving DecidableEq

/-- `App` from `src/app.rs`.  `table_selected` models
`TableState::selected()`; `tick_rate : Duration` is omitted (never read by
the state machine). -/
structure App where
  sys : SysCache
  should_quit : Bool
  table_selected : Option Nat
  cpu_history : List Nat
  net_rx_history : List Nat
  net_tx_history : List Nat
  search_query : Str
  input_mode : InputMode
  popup : PopupState
deriving DecidableEq

/-- `App::new`: fresh cache (which refreshes once), selection at row 0,
three 100-sample zero histories, empty query, `Normal` mode, no popup. -/
def App.new (inp : Sample) : App :=
  { sys := SysCache.new inp
    should_quit := false
    table_selected := some 0
    cpu_history := List.replicate 100 0
    net_rx_history := List.replicate 100 0
    net_tx_history := List.replicate 100 0
    search_query := []
    input_mode := InputMode.normal
    popup := PopupState.none }

/-- One history-ring push from `App::on_tick`: `history.remove(0)` followed by
`history.push(v)` (`remove(0)` panics on an empty vector; the histories are
created with length 100 and, as proved below, keep it). -/
def pushHistory (h : List Nat) (v : Nat) : List Nat :=
  h.tail ++ [v]

/-- `App::on_tick`: refresh the cache, then push the cpu sample
(`cpu_global as u64`) and the two network rates into the three history
rings. -/
def App.on_tick (app : App) (inp : Sample) : App :=
  let sys := app.sys.refresh inp
  { app with
      sys := sys
      cpu_history := pushHistory app.cpu_history sys.cpu_global
      net_rx_history := pushHistory app.net_rx_history sys.rx_rate
      net_tx_history := pushHistory app.net_tx_history sys.tx_rate }

/-- The filter predicate both `App::try_kill` / `App::next` / `App::previous`
and `ui.rs::draw_processes` apply: lowercase the query, keep a process iff
the query occurs in the lowercased name or in the decimal pid string
(`p.name.to_lowercase().contains(&query) || p.pid.to_string().contains(&query)`
with `query = self.search_query.to_lowercase()`). -/
def processMatches (search_query : Str) (p : ProcessInfo) : Bool :=
  let query := toLower search_query
  strContains (toLower p.name) query || strContains (natDigits p.pid) query

/-- The spec's wording of the same filter, for comparison: the search text is
a case-insensitive substring of the process name, OR a substring of the
decimal string form of the pid (the raw text, with no lowercasing, on the pid
side). -/
def specMatches (text : Str) (p : ProcessInfo) : Bool :=
  strContains (toLower p.name) (toLower text) || strContains (natDigits p.pid) text

/-- The filtered projection of the process list. -/
def filteredProcs (app : App) : List ProcessInfo :=
  app.sys.procs.filter (processMatches app.search_query)

/-- `App::toggle_sort`.  The source match lists only the `Cpu`, `Memory` and
`Pid` arms (it is non-exhaustive over `ProcessSort`, which also has `Tree`);
the `Tree` arm below is filled with the identity and, as proved below, is
unreachable from the initial state. -/
def App.toggle_sort (app : App) : App :=
  { app with
      sys := { app.sys with
        sort_by :=
          match app.sys.sort_by with
          | ProcessSort.Cpu => ProcessSort.Memory
          | ProcessSort.Memory => ProcessSort.Pid
          | ProcessSort.Pid => ProcessSort.Cpu
          | ProcessSort.Tree => ProcessSort.Tree } }

/-- `App::open_help`. -/
def App.open_help (app : App) : App :=
  { app with popup := PopupState.help, input_mode := InputMode.popup }

/-- `App::try_kill`: look up the process at the cursor inside the current
filtered projection; when found, open the kill popup carrying its pid and
name and switch to popup mode; otherwise do nothing. -/
def App.try_kill (app : App) : App :=
  let processes := filteredProcs app
  match app.table_selected with
  | some i =>
    match processes[i]? with
    | some p =>
      { app with popup := PopupState.kill p.pid p.name, input_mode := InputMode.popup }
    | Option.none => app
  | Option.none => app

/-- `App::close_popup`. -/
def App.close_popup (app : App) : App :=
  { app with popup := PopupState.none, input_mode := InputMode.normal }

/-- `App::confirm_popup`: when the pending popup is a kill popup, invoke
`SysCache::kill_process` with the captured pid, then close the popup.  The
second component lists the pids `kill_process` was invoked with during the
step. -/
def App.confirm_popup (app : App) : App × List Nat :=
  match app.popup with
  | PopupState.kill pid _ => (app.close_popup, [pid])
  | _ => (app.close_popup, [])

/-- `App::next`: recompute the filtered count; no-op when it is 0; otherwise
move the cursor down, wrapping from the last row to row 0
(`if i >= count - 1 { 0 } else { i + 1 }`). -/
def App.next (app : App) : App :=
  let count := (filteredProcs app).length
  if count = 0 then app
  else
    let i :=
      match app.table_selected with
      | some i => if count - 1 ≤ i then 0 else i + 1
      | Option.none => 0
    { app with table_selected := some i }

/-- `App::previous`: no-op when the filtered count is 0; otherwise move the
cursor up, wrapping from row 0 to the last row
(`if i == 0 { count - 1 } else { i - 1 }`). -/
def App.previous (app : App) : App :=
  let count := (filteredProcs app).length
  if count = 0 then app
  else
    let i :=
      match app.table_selected with
      | some i => if i = 0 then count - 1 else i - 1
      | Option.none => 0
    { app with table_selected := some i }

/-- `App::on_key`: mode-gated dispatch, ported arm by arm.  The second
component lists the pids `kill_process` was invoked with during the step. -/
def App.on_key (app : App) (k : KeyEvent) : App × List Nat :=
  match app.input_mode with
  | InputMode.normal =>
    match k.code with
    | KeyCode.char c =>
      if c = 113 ∨ c = 81 then ({ app with should_quit := true }, [])
      else if c = 99 ∧ k.ctrl then ({ app with should_quit := true }, [])
      else if c = 107 then (app.try_kill, [])
      else if c = 47 then ({ app with input_mode := InputMode.editing }, [])
      else if c = 115 then (app.toggle_sort, [])
      else if c = 63 then (app.open_help, [])
      else (app, [])
    | KeyCode.down => (app.next, [])
    | KeyCode.up => (app.previous, [])
    | KeyCode.tab => (app.toggle_sort, [])
    | _ => (app, [])
  | InputMode.editing =>
    match k.code with
    | KeyCode.esc => ({ app with input_mode := InputMode.normal }, [])
    | KeyCode.enter => ({ app with input_mode := InputMode.normal }, [])
    | KeyCode.backspace => ({ app with search_query := app.search_query.dropLast }, [])
    | KeyCode.char c => ({ app with search_query := app.search_query ++ [c] }, [])
    | _ => (app, [])
  | InputMode.popup =>
    match k.code with
    | KeyCode.esc => (app.close_popup, [])
    | KeyCode.enter => app.confirm_popup
    | KeyCode.char c =>
      if c = 110 ∨ c = 78 then (app.close_popup, [])
      else if c = 121 ∨ c = 89 then app.confirm_popup
      else (app, [])
    | _ => (app, [])

/-- An event of the main loop: a timer tick (with the provider reading the
refresh will observe) or a key press. -/
inductive Event
  | tick (inp : Sample)
  | input (k : KeyEvent)

/-- One main-loop step (`main.rs`): ticks run `on_tick`, keys run `on_key`. -/
def step (app : App) (e : Event) : App :=
  match e with
  | Event.tick inp => app.on_tick inp
  | Event.input k => (app.on_key k).1

/-! ### Specification devices for the process tree

These are not part of the program; they define, over the same table, the
notions the tree claim speaks about: the resolved parent link, the number of
valid ancestor links from a record to a root (`depthToRoot`), and the
distance from a record up its ancestor chain to a given pid (`hitDist`).
All are fuelled; the lemmas below show the fixed fuels suffice. -/

/-- The resolved parent link: `some pp` iff `x` is in the table, has
`parent = some pp`, and `pp` is itself in the table. -/
def parOf (tbl : List ProcessInfo) (x : Nat) : Option Nat :=
  match lookupPid tbl x with
  | Option.none => Option.none
  | some p =>
    match p.parent with
    | Option.none => Option.none
    | some pp => if (lookupPid tbl pp).isSome then some pp else Option.none

/-- Fuelled ancestor count: `some d` iff following resolved parent links from
`x` reaches a root (a record whose parent is absent or dangling) in `d`
steps.  `none` for pids outside the table or when the fuel runs out. -/
def climb (tbl : List ProcessInfo) : Nat → Nat → Option Nat
  | 0, _ => Option.none
  | f + 1, x =>
    match lookupPid tbl x with
    | Option.none => Option.none
    | some p =>
      match p.parent with
      | Option.none => some 0
      | some pp =>
        match lookupPid tbl pp with
        | Option.none => some 0
        | some _ => (climb tbl f pp).map (· + 1)

/-- The number of valid ancestor links from `x` to a root; `none` when the
parent chain of `x` never reaches a root (a parent cycle). -/
def depthToRoot (tbl : List ProcessInfo) (x : Nat) : Option Nat :=
  climb tbl tbl.length x

/-- Fuelled first-hit distance: `some j` iff following resolved parent links
from `x` first reaches `t` after `j` steps. -/
def hitD (tbl : List ProcessInfo) : Nat → Nat → Nat → Option Nat
  | 0, _, _ => Option.none
  | f + 1, x, t =>
    if x = t then some 0
    else
      match parOf tbl x with
      | Option.none => Option.none
      | some pp => (hitD tbl f pp t).map (· + 1)

/-- First-hit distance with sufficient fuel. -/
def hitDist (tbl : List ProcessInfo) (x t : Nat) : Option Nat :=
  hitD tbl (tbl.length + 1) x t

/-- `j`-fold iteration of the resolved parent link. -/
def parIter (tbl : List ProcessInfo) : Nat → Nat → Option Nat
  | 0, x => some x
  | j + 1, x =>
    match parOf tbl x with
    | Option.none => Option.none
    | some pp => parIter tbl j pp

/-! ### Concrete states used by witnesses and counterexamples -/

/-- A process record with the given pid, name and parent (the other fields
are irrelevant to the claims that use these tables). -/
def mkProc (pid : Nat) (name : Str) (parent : Option Nat) : ProcessInfo :=
  { pid := pid, name := name, user := str "root", cmd := [], cpu := 0,
    mem_bytes := 0, parent := parent, indent := 0 }

/-- A two-record table whose parent links form a cycle: 1 ↦ 2 ↦ 1. -/
def cycleTbl : List ProcessInfo :=
  [mkProc 1 (str "a") (some 2), mkProc 2 (str "b") (some 1)]

/-- A well-formed table: 1 is a true root with children 2 and 4, 2 has child
5, and 3 has a dangling parent (99 is not in the table). -/
def forestTbl : List ProcessInfo :=
  [mkProc 5 (str "e") (some 2), mkProc 3 (str "c") (some 99),
   mkProc 1 (str "a") Option.none, mkProc 4 (str "d") (some 1),
   mkProc 2 (str "b") (some 1)]

/-- A cache state with nonzero previous network counters (for the rate
claims). -/
def rateState : SysCache :=
  { cpu_global := 0, total_mem := 0, used_mem := 0, uptime := 0,
    rx_rate := 0, tx_rate := 0, prev_rx := 100, prev_tx := 100,
    sys_table := [], procs := [], sort_by := ProcessSort.Cpu }

/-- A provider reading whose cumulative totals did not move
(`total_rx = prev_rx`, `total_tx = prev_tx` of `rateState`) but whose
per-interval delta sums are nonzero. -/
def rateSample : Sample :=
  { cpu_global := 1, total_memory := 8, available_memory := 3, uptime := 9,
    total_rx := 100, total_tx := 100, delta_rx := 7, delta_tx := 9,
    processes := [] }

/-- A provider reading with very large cumulative counters and a small
nonzero per-interval delta, as observed by the first refresh. -/
def coldStartSample : Sample :=
  { cpu_global := 1, total_memory := 8, available_memory := 3, uptime := 9,
    total_rx := 1000000000000, total_tx := 2000000000000, delta_rx := 5,
    delta_tx := 6, processes := [] }

/-- A cache whose process table holds pids 42 and 7. -/
def twoProcSys : SysCache :=
  { cpu_global := 0, total_mem := 0, used_mem := 0, uptime := 0,
    rx_rate := 0, tx_rate := 0, prev_rx := 0, prev_tx := 0,
    sys_table := [mkProc 42 (str "x") Option.none, mkProc 7 (str "y") Option.none],
    procs := [mkProc 42 (str "x") Option.none, mkProc 7 (str "y") Option.none],
    sort_by := ProcessSort.Cpu }

/-- An app in `Normal` mode with the cursor on row 0 of a two-row projection
(pid 42 first). -/
def killReqApp : App :=
  { sys := twoProcSys, should_quit := false, table_selected := some 0,
    cpu_history := List.replicate 100 0, net_rx_history := List.replicate 100 0,
    net_tx_history := List.replicate 100 0, search_query := [],
    input_mode := InputMode.normal, popup := PopupState.none }

/-- An app in `Normal` mode with the cursor on the last row (row 1) of a
two-row projection. -/
def lastRowApp : App :=
  { killReqApp with table_selected := some 1 }

/-- An app whose projection is empty (the query matches nothing). -/
def emptyProjApp : App :=
  { killReqApp with search_query := str "zzz" }

/-- An app showing the help popup. -/
def helpApp : App :=
  { killReqApp with input_mode := InputMode.popup, popup := PopupState.help }

/-- An app awaiting confirmation of a kill of pid 42. -/
def confirmApp : App :=
  { killReqApp with input_mode := InputMode.popup, popup := PopupState.kill 42 (str "x") }

/-! ## Helper lemmas: stable sort -/

theorem insertLe_perm {α : Type} (le : α → α → Bool) (a : α) (l : List α) :
    (insertLe le a l).Perm (a :: l) := by
  induction l with
  | nil => simp [insertLe]
  | cons b t ih =>
    simp only [insertLe]
    split
    · exact List.Perm.refl _
    · exact (ih.cons b).trans (List.Perm.swap a b t)

theorem sortByLe_perm {α : Type} (le : α → α → Bool) (l : List α) :
    (sortByLe le l).Perm l := by
  induction l with
  | nil => simp [sortByLe]
  | cons a t ih =>
    exact (insertLe_perm le a (sortByLe le t)).trans (ih.cons a)

theorem mem_sortByLe {α : Type} {le : α → α → Bool} {a : α} {l : List α} :
    a ∈ sortByLe le l ↔ a ∈ l :=
  (sortByLe_perm le l).mem_iff

theorem mem_insertLe {α : Type} {le : α → α → Bool} {x a : α} {l : List α} :
    x ∈ insertLe le a l ↔ x = a ∨ x ∈ l := by
  rw [(insertLe_perm le a l).mem_iff, List.mem_cons]

theorem insertLe_sorted {α : Type} {le : α → α → Bool}
    (htrans : ∀ x y z, le x y = true → le y z = true → le x z = true)
    (htot : ∀ x y, le x y = true ∨ le y x = true)
    (a : α) {l : List α} (hl : l.Pairwise (fun x y => le x y = true)) :
    (insertLe le a l).Pairwise (fun x y => le x y = true) := by
  induction l with
  | nil => simp [insertLe]
  | cons b t ih =>
    rcases hl with _ | ⟨hb, ht⟩
    simp only [insertLe]
    split
    · rename_i hab
      refine List.Pairwise.cons ?_ (List.Pairwise.cons hb ht)
      intro y hy
      rcases List.mem_cons.1 hy with rfl | hy
      · exact hab
      · exact htrans a b y hab (hb y hy)
    · rename_i hab
      have hba : le b a = true := by
        rcases htot a b with h | h
        · exact absurd h hab
        · exact h
      refine List.Pairwise.cons ?_ (ih ht)
      intro y hy
      rcases mem_insertLe.1 hy with rfl | hy
      · exact hba
      · exact hb y hy

theorem sortByLe_sorted {α : Type} {le : α → α → Bool}
    (htrans : ∀ x y z, le x y = true → le y z = true → le x z = true)
    (htot : ∀ x y, le x y = true ∨ le y x = true)
    (l : List α) :
    (sortByLe le l).Pairwise (fun x y => le x y = true) := by
  induction l with
  | nil => simp [sortByLe]
  | cons a t ih => exact insertLe_sorted htrans htot a ih

theorem natSort_sorted (l : List Nat) :
    (sortByLe (fun a b => decide (a ≤ b)) l).Pairwise (· ≤ ·) := by
  have h := @sortByLe_sorted Nat (fun a b : Nat => decide (a ≤ b))
    (by intro x y z hx hy; simp only [decide_eq_true_eq] at *; omega)
    (by intro x y; simp only [decide_eq_true_eq]; omega) l
  exact h.imp (by intro a b h; simpa using h)

/-! ## Helper lemmas: strings -/

theorem isPrefixB_iff (needle : Str) : ∀ hay : Str,
    (isPrefixB needle hay = true ↔ ∃ t, hay = needle ++ t) := by
  induction needle with
  | nil => intro hay; simp [isPrefixB]
  | cons a s ih =>
    intro hay
    cases hay with
    | nil => simp [isPrefixB]
    | cons b t =>
      simp only [isPrefixB, Bool.and_eq_true, beq_iff_eq, ih t]
      constructor
      · rintro ⟨rfl, u, rfl⟩
        exact ⟨u, rfl⟩
      · rintro ⟨u, hu⟩
        injection hu with h1 h2
        exact ⟨h1.symm, u, h2⟩
  
theorem strContains_iff (hay needle : Str) :
    (strContains hay needle = true ↔ ∃ s t, hay = s ++ needle ++ t) := by
  induction hay with
  | nil =>
    simp only [strContains, isPrefixB_iff]
    constructor
    · rintro ⟨t, ht⟩; exact ⟨[], t, ht⟩
    · rintro ⟨s, t, hst⟩
      have hs : s = [] := by
        cases s with
        | nil => rfl
        | cons c u => simp at hst
      subst hs
      exact ⟨t, hst⟩
  | cons c t ih =>
    simp only [strContains, Bool.or_eq_true, isPrefixB_iff, ih]
    constructor
    · rintro (⟨u, hu⟩ | ⟨s, u, hu⟩)
      · exact ⟨[], u, by simpa using hu⟩
      · exact ⟨c :: s, u, by simp [hu]⟩
    · rintro ⟨s, u, hu⟩
      cases s with
      | nil => exact Or.inl ⟨u, by simpa using hu⟩
      | cons d s' =>
        injection hu with h1 h2
        exact Or.inr ⟨s', u, h2⟩

theorem strContains_nil (hay : Str) : strContains hay [] = true := by
  cases hay <;> rfl

theorem natDigitsAux_digits : ∀ (fuel n : Nat), n < fuel →
    ∀ c ∈ natDigitsAux fuel n, 48 ≤ c ∧ c ≤ 57 := by
  intro fuel
  induction fuel with
  | zero => intro n h; omega
  | succ f ih =>
    intro n hn c hc
    simp only [natDigitsAux] at hc
    split at hc
    · rename_i h10
      simp only [List.mem_singleton] at hc
      omega
    · rename_i h10
      rcases List.mem_append.1 hc with hc | hc
      · have hdiv : n / 10 < n := Nat.div_lt_self (by omega) (by omega)
        exact ih (n / 10) (by omega) c hc
      · have hc10 : c = 48 + n % 10 := by simpa using hc
        have hm : n % 10 < 10 := Nat.mod_lt n (by omega)
        omega

theorem natDigits_digits (n : Nat) : ∀ c ∈ natDigits n, 48 ≤ c ∧ c ≤ 57 :=
  natDigitsAux_digits (n + 1) n (Nat.lt_succ_self n)

theorem lowerCP_of_digit {c : Nat} (h1 : 48 ≤ c) (h2 : c ≤ 57) : lowerCP c = c := by
  unfold lowerCP
  split <;> omega

theorem lowerCP_digit_fixed {c : Nat} (h1 : 48 ≤ lowerCP c) (h2 : lowerCP c ≤ 57) :
    lowerCP c = c := by
  by_cases h : 65 ≤ c ∧ c ≤ 90
  · exfalso
    simp only [lowerCP, if_pos h] at h1 h2
    omega
  · simp only [lowerCP, if_neg h]

theorem strContains_digits_toLower (n : Nat) (q : Str) :
    strContains (natDigits n) (toLower q) = strContains (natDigits n) q := by
  rcases h1 : strContains (natDigits n) (toLower q) with _ | _
  case true =>
    rcases strContains_iff _ _ |>.1 h1 with ⟨s, t, hst⟩
    have hfix : toLower q = q := by
      apply List.map_congr_left ?_ |>.trans (List.map_id q)
      intro c hc
      have hmem : lowerCP c ∈ natDigits n := by
        rw [hst]
        simp only [List.mem_append]
        exact Or.inl (Or.inr (List.mem_map_of_mem lowerCP hc))
      have := natDigits_digits n _ hmem
      exact lowerCP_digit_fixed this.1 this.2
    rw [hfix] at h1
    rw [h1]
  case false =>
    rcases h2 : strContains (natDigits n) q with _ | _
    case false => rfl
    case true =>
      exfalso
      rcases strContains_iff _ _ |>.1 h2 with ⟨s, t, hst⟩
      have hfix : toLower q = q := by
        apply List.map_congr_left ?_ |>.trans (List.map_id q)
        intro c hc
        have hmem : c ∈ natDigits n := by
          rw [hst]
          simp only [List.mem_append]
          exact Or.inl (Or.inr hc)
        have := natDigits_digits n _ hmem
        exact lowerCP_of_digit this.1 this.2
      rw [← hfix] at h2
      rw [h1] at h2
      exact Bool.false_ne_true h2


/-! ## Helper lemmas: history ring -/

theorem pushHistory_length {h : List Nat} (v : Nat) (hne : h ≠ []) :
    (pushHistory h v).length = h.length := by
  have hpos : 0 < h.length := List.length_pos.2 hne
  simp only [pushHistory, List.length_append, List.length_tail, List.length_cons,
    List.length_nil]
  omega

theorem foldl_pushHistory : ∀ (vs h : List Nat), h ≠ [] →
    List.foldl pushHistory h vs = (h ++ vs).drop vs.length := by
  intro vs
  induction vs with
  | nil => intro h hne; simp
  | cons v vs ih =>
    intro h hne
    cases h with
    | nil => exact absurd rfl hne
    | cons a t =>
      have h1 : pushHistory (a :: t) v = t ++ [v] := rfl
      simp only [List.foldl_cons, h1]
      rw [ih (t ++ [v]) (by simp)]
      simp only [List.length_cons, List.cons_append, List.drop_succ_cons,
        List.append_assoc, List.singleton_append, List.nil_append]

/-! ## Helper lemmas: which controller actions touch `sys` -/

theorem try_kill_sys (app : App) : app.try_kill.sys = app.sys := by
  rcases hts : app.table_selected with _ | i <;> simp only [App.try_kill, hts]
  rcases hg : (filteredProcs app)[i]? with _ | p <;> simp only [hg]

theorem next_sys (app : App) : app.next.sys = app.sys := by
  simp only [App.next]
  split <;> rfl

theorem previous_sys (app : App) : app.previous.sys = app.sys := by
  simp only [App.previous]
  split <;> rfl

theorem confirm_popup_sys (app : App) : app.confirm_popup.1.sys = app.sys := by
  rcases hp : app.popup <;> simp only [App.confirm_popup, hp] <;> rfl

theorem confirm_popup_calls (app : App) :
    app.confirm_popup.2 = [] ∨ ∃ pid nm, app.popup = PopupState.kill pid nm := by
  rcases hp : app.popup with _ | _ | ⟨pid, nm⟩
  · exact Or.inl (by simp [App.confirm_popup, hp])
  · exact Or.inl (by simp [App.confirm_popup, hp])
  · exact Or.inr ⟨pid, nm, rfl⟩

theorem on_key_sort_by (app : App) (k : KeyEvent) :
    (app.on_key k).1.sys.sort_by = app.sys.sort_by
    ∨ (app.on_key k).1.sys.sort_by = app.toggle_sort.sys.sort_by := by
  rcases k with ⟨code, ctrl⟩
  cases him : app.input_mode <;> cases code <;>
      simp only [App.on_key, him] <;> (try split_ifs) <;>
    first
      | exact Or.inl trivial
      | exact Or.inr trivial
      | exact Or.inl rfl
      | exact Or.inr rfl
      | exact Or.inl (congrArg SysCache.sort_by (try_kill_sys app))
      | exact Or.inl (congrArg SysCache.sort_by (next_sys app))
      | exact Or.inl (congrArg SysCache.sort_by (previous_sys app))
      | exact Or.inl (congrArg SysCache.sort_by (confirm_popup_sys app))

theorem step_sort_by (app : App) (e : Event)
    (h : app.sys.sort_by = ProcessSort.Cpu ∨ app.sys.sort_by = ProcessSort.Memory
         ∨ app.sys.sort_by = ProcessSort.Pid) :
    (step app e).sys.sort_by = ProcessSort.Cpu
    ∨ (step app e).sys.sort_by = ProcessSort.Memory
    ∨ (step app e).sys.sort_by = ProcessSort.Pid := by
  cases e with
  | tick inp =>
    have hs : (step app (Event.tick inp)).sys.sort_by = app.sys.sort_by := rfl
    rw [hs]; exact h
  | input k =>
    have hs : (step app (Event.input k)).sys.sort_by = (app.on_key k).1.sys.sort_by := rfl
    rcases on_key_sort_by app k with hk | hk
    · rw [hs, hk]; exact h
    · rw [hs, hk]
      rcases h with h | h | h <;> simp [App.toggle_sort, h]

theorem foldl_step_sort_by (evs : List Event) : ∀ app : App,
    (app.sys.sort_by = ProcessSort.Cpu ∨ app.sys.sort_by = ProcessSort.Memory
     ∨ app.sys.sort_by = ProcessSort.Pid) →
    ((evs.foldl step app).sys.sort_by = ProcessSort.Cpu
     ∨ (evs.foldl step app).sys.sort_by = ProcessSort.Memory
     ∨ (evs.foldl step app).sys.sort_by = ProcessSort.Pid) := by
  induction evs with
  | nil => intro app h; exact h
  | cons e evs ih =>
    intro app h
    exact ih (step app e) (step_sort_by app e h)

/-! ## Claim C6 -/

/-- C6: the projection filter admits a record iff the search text is a
case-insensitive substring of the process name or a substring of the decimal
string form of its pid; the empty search text admits every record; and on
pids 17, 27, 3 with names a, b, c the text "7" admits exactly 17 and 27. -/
theorem C6_filter_characterisation :
    (∀ (q : Str) (p : ProcessInfo), processMatches q p = specMatches q p)
    ∧ (∀ p : ProcessInfo, processMatches [] p = true)
    ∧ (([mkProc 17 (str "a") Option.none, mkProc 27 (str "b") Option.none,
         mkProc 3 (str "c") Option.none].filter
          (fun p => processMatches (str "7") p)).map (fun p => p.pid) = [17, 27]) := by
  refine ⟨?_, ?_, by decide⟩
  · intro q p
    simp only [processMatches, specMatches]
    rw [strContains_digits_toLower]
  · intro p
    simp only [processMatches, toLower, List.map_nil]
    rw [strContains_nil]
    simp

/-! ## Claim C3 -/

/-- C3: at a refresh where the cumulative counters did not move
(`total_rx = prev_rx = 100`) but the provider's per-interval delta sums are
7 and 9, the stored rates are 7 and 9 — not the claimed
`max(0, current − previous) = 0` — because the stale second network block in
`refresh` overwrites the saturating-subtraction rates; the previous counters
are nonetheless updated to the current totals, as claimed. -/
theorem C3_rates_overwritten_by_stale_block :
    (rateState.refresh rateSample).rx_rate = 7
    ∧ (rateState.refresh rateSample).tx_rate = 9
    ∧ rateSample.total_rx - rateState.prev_rx = 0
    ∧ rateSample.total_tx - rateState.prev_tx = 0
    ∧ (rateState.refresh rateSample).prev_rx = rateSample.total_rx
    ∧ (rateState.refresh rateSample).prev_tx = rateSample.total_tx := by
  decide

/-! ## Claim C4 -/

/-- C4: the first refresh performed by `SysCache::new`, observing huge
cumulative counters and per-interval delta sums of 5 and 6, stores rates 5
and 6 rather than the claimed 0: the stale second network block publishes the
provider's delta sums, bypassing the `prev_rx > 0` cold-start guard of the
saturating-subtraction block. -/
theorem C4_first_refresh_rate_not_zero :
    (SysCache.new coldStartSample).rx_rate = 5
    ∧ (SysCache.new coldStartSample).tx_rate = 6
    ∧ ¬((SysCache.new coldStartSample).rx_rate = 0
        ∧ (SysCache.new coldStartSample).tx_rate = 0) := by
  decide

/-! ## Claim C7 -/

/-- C7: `kill_process` with a pid absent from the last refreshed process
table kills nothing and returns normally (the embedding is a total function
whose result names the pid killed, if any). -/
theorem C7_kill_absent_pid_noop : ∀ (s : SysCache) (pid : Nat),
    lookupPid s.sys_table pid = Option.none → s.kill_process pid = Option.none := by
  intro s pid h
  simp [SysCache.kill_process, h]

theorem C7_kill_absent_pid_noop_witness :
    lookupPid twoProcSys.sys_table 999 = Option.none
    ∧ twoProcSys.kill_process 999 = Option.none :=
  ⟨by decide, C7_kill_absent_pid_noop twoProcSys 999 (by decide)⟩

/-! ## Claim C8 -/

/-- C8: the three history sequences keep length exactly 100 across every
sequence of ticks, and pushing into a length-100 history 150 times leaves
exactly the last 100 pushed values, in push order. -/
theorem C8_history_ring :
    (∀ (inp : Sample) (samples : List Sample),
      (samples.foldl App.on_tick (App.new inp)).cpu_history.length = 100
      ∧ (samples.foldl App.on_tick (App.new inp)).net_rx_history.length = 100
      ∧ (samples.foldl App.on_tick (App.new inp)).net_tx_history.length = 100)
    ∧ (∀ (h vs : List Nat), h.length = 100 → vs.length = 150 →
        List.foldl pushHistory h vs = vs.drop 50) := by
  have hne : ∀ l : List Nat, l.length = 100 → l ≠ [] := by
    intro l hl hnil
    rw [hnil] at hl
    exact absurd hl (by decide)
  constructor
  · intro inp samples
    have H : ∀ (samples : List Sample) (app : App),
        app.cpu_history.length = 100 → app.net_rx_history.length = 100 →
        app.net_tx_history.length = 100 →
        (samples.foldl App.on_tick app).cpu_history.length = 100
        ∧ (samples.foldl App.on_tick app).net_rx_history.length = 100
        ∧ (samples.foldl App.on_tick app).net_tx_history.length = 100 := by
      intro samples
      induction samples with
      | nil => intro app h1 h2 h3; exact ⟨h1, h2, h3⟩
      | cons s samples ih =>
        intro app h1 h2 h3
        refine ih (app.on_tick s) ?_ ?_ ?_
        · show (pushHistory app.cpu_history (app.sys.refresh s).cpu_global).length = 100
          rw [pushHistory_length _ (hne _ h1)]; exact h1
        · show (pushHistory app.net_rx_history (app.sys.refresh s).rx_rate).length = 100
          rw [pushHistory_length _ (hne _ h2)]; exact h2
        · show (pushHistory app.net_tx_history (app.sys.refresh s).tx_rate).length = 100
          rw [pushHistory_length _ (hne _ h3)]; exact h3
    exact H samples (App.new inp) (by simp [App.new]) (by simp [App.new]) (by simp [App.new])
  · intro h vs h100 h150
    rw [foldl_pushHistory vs h (hne h h100)]
    rw [h150]
    have h2 : (150 : Nat) = h.length + 50 := by omega
    rw [h2, ← List.drop_drop, List.drop_left]

set_option maxRecDepth 4000 in
theorem C8_history_ring_witness :
    (List.replicate 100 0 : List Nat).length = 100
    ∧ (List.range 150).length = 150
    ∧ List.foldl pushHistory (List.replicate 100 0) (List.range 150)
        = (List.range 150).drop 50 :=
  ⟨by simp, by simp,
   C8_history_ring.2 (List.replicate 100 0) (List.range 150) (by simp) (by simp)⟩

/-! ## Claim C5 -/

/-- C5 counterexample: with a two-row projection and the cursor on the last
row, moving down wraps the cursor to row 0; the claim's clamping behaviour
(staying at row 1) does not hold. -/
theorem C5_wrap_counterexample :
    (filteredProcs lastRowApp).length = 2
    ∧ lastRowApp.table_selected = some 1
    ∧ (lastRowApp.on_key { code := KeyCode.down, ctrl := false }).1.table_selected = some 0
    ∧ ¬((lastRowApp.on_key { code := KeyCode.down, ctrl := false }).1.table_selected
          = some 1) := by
  decide

/-- C5 (amended): with a non-empty projection and an in-range cursor, moving
down and up keeps the cursor within bounds, but moving past either end wraps
to the opposite boundary (down from the last row goes to 0, up from row 0
goes to the last row) instead of clamping; on an empty projection both
movements leave the state unchanged. -/
theorem C5_cursor_wraps_within_bounds :
    (∀ (app : App) (i : Nat) (m : Bool),
      app.input_mode = InputMode.normal → app.table_selected = some i →
      i < (filteredProcs app).length →
      (app.on_key { code := KeyCode.down, ctrl := m }
          = ({ app with
                table_selected := some (if (filteredProcs app).length - 1 ≤ i then 0 else i + 1) }, [])
        ∧ (if (filteredProcs app).length - 1 ≤ i then 0 else i + 1)
            < (filteredProcs app).length))
    ∧ (∀ (app : App) (i : Nat) (m : Bool),
      app.input_mode = InputMode.normal → app.table_selected = some i →
      i < (filteredProcs app).length →
      (app.on_key { code := KeyCode.up, ctrl := m }
          = ({ app with
                table_selected := some (if i = 0 then (filteredProcs app).length - 1 else i - 1) }, [])
        ∧ (if i = 0 then (filteredProcs app).length - 1 else i - 1)
            < (filteredProcs app).length))
    ∧ (∀ (app : App) (m : Bool),
      app.input_mode = InputMode.normal → (filteredProcs app).length = 0 →
      app.on_key { code := KeyCode.down, ctrl := m } = (app, [])
      ∧ app.on_key { code := KeyCode.up, ctrl := m } = (app, [])) := by
  refine ⟨?_, ?_, ?_⟩
  · intro app i m hmode hsel hlt
    refine ⟨?_, by split_ifs <;> omega⟩
    simp only [App.on_key, hmode, App.next, hsel]
    rw [if_neg (by omega)]
  · intro app i m hmode hsel hlt
    refine ⟨?_, by split_ifs <;> omega⟩
    simp only [App.on_key, hmode, App.previous, hsel]
    rw [if_neg (by omega)]
  · intro app m hmode hzero
    constructor
    · simp [App.on_key, hmode, App.next, hzero]
    · simp [App.on_key, hmode, App.previous, hzero]

theorem C5_cursor_wraps_witness :
    (killReqApp.input_mode = InputMode.normal
     ∧ killReqApp.table_selected = some 0
     ∧ 0 < (filteredProcs killReqApp).length
     ∧ (killReqApp.on_key { code := KeyCode.down, ctrl := false }
          = ({ killReqApp with
                table_selected := some (if (filteredProcs killReqApp).length - 1 ≤ 0 then 0 else 0 + 1) }, [])
        ∧ (if (filteredProcs killReqApp).length - 1 ≤ 0 then 0 else 0 + 1)
            < (filteredProcs killReqApp).length))
    ∧ ((filteredProcs emptyProjApp).length = 0
     ∧ (emptyProjApp.on_key { code := KeyCode.down, ctrl := false } = (emptyProjApp, [])
        ∧ emptyProjApp.on_key { code := KeyCode.up, ctrl := false } = (emptyProjApp, []))) :=
  ⟨⟨by decide, by decide, by decide,
    C5_cursor_wraps_within_bounds.1 killReqApp 0 false (by decide) (by decide) (by decide)⟩,
   ⟨by decide,
    C5_cursor_wraps_within_bounds.2.2 emptyProjApp false (by decide) (by decide)⟩⟩

/-! ## Claim C1 -/

/-- C1: requesting a kill with a process at the cursor of the filtered
projection opens the kill-confirmation popup carrying that process's pid and
name; from there, cancel (Esc / n / N) returns to normal mode without any
kill invocation, confirm (Enter / y / Y) invokes `kill_process` exactly once
with the captured pid and returns to normal mode; and with no process at the
cursor the request leaves the state — in particular the mode — unchanged. -/
theorem C1_kill_confirmation_flow :
    (∀ (app : App) (m : Bool) (i : Nat) (p : ProcessInfo),
      app.input_mode = InputMode.normal →
      app.table_selected = some i →
      (filteredProcs app)[i]? = some p →
      app.on_key { code := KeyCode.char 107, ctrl := m }
        = ({ app with
              popup := PopupState.kill p.pid p.name, input_mode := InputMode.popup }, []))
    ∧ (∀ (app : App) (pid : Nat) (nm : Str) (k : KeyEvent),
      app.input_mode = InputMode.popup →
      app.popup = PopupState.kill pid nm →
      (k.code = KeyCode.esc ∨ k.code = KeyCode.char 110 ∨ k.code = KeyCode.char 78) →
      app.on_key k
        = ({ app with
              popup := PopupState.none, input_mode := InputMode.normal }, []))
    ∧ (∀ (app : App) (pid : Nat) (nm : Str) (k : KeyEvent),
      app.input_mode = InputMode.popup →
      app.popup = PopupState.kill pid nm →
      (k.code = KeyCode.enter ∨ k.code = KeyCode.char 121 ∨ k.code = KeyCode.char 89) →
      app.on_key k
        = ({ app with
              popup := PopupState.none, input_mode := InputMode.normal }, [pid]))
    ∧ (∀ (app : App) (m : Bool) (i : Nat),
      app.input_mode = InputMode.normal →
      app.table_selected = some i →
      (filteredProcs app)[i]? = Option.none →
      app.on_key { code := KeyCode.char 107, ctrl := m } = (app, [])) := by
  refine ⟨?_, ?_, ?_, ?_⟩
  · intro app m i p hmode hsel hget
    simp only [App.on_key, hmode, App.try_kill, hsel, hget]
    norm_num
  · intro app pid nm k hmode hpopup hkey
    rcases k with ⟨code, ctrl⟩
    simp only at hkey
    rcases hkey with rfl | rfl | rfl <;>
      simp [App.on_key, hmode, App.close_popup]
  · intro app pid nm k hmode hpopup hkey
    rcases k with ⟨code, ctrl⟩
    simp only at hkey
    rcases hkey with rfl | rfl | rfl <;>
      simp [App.on_key, hmode, App.confirm_popup, hpopup, App.close_popup]
  · intro app m i hmode hsel hget
    simp only [App.on_key, hmode, App.try_kill, hsel, hget]
    norm_num

theorem C1_kill_confirmation_flow_witness :
    (killReqApp.input_mode = InputMode.normal
     ∧ killReqApp.table_selected = some 0
     ∧ (filteredProcs killReqApp)[0]? = some (mkProc 42 (str "x") Option.none)
     ∧ killReqApp.on_key { code := KeyCode.char 107, ctrl := false }
         = ({ killReqApp with
               popup := PopupState.kill 42 (str "x"), input_mode := InputMode.popup }, []))
    ∧ confirmApp.on_key { code := KeyCode.esc, ctrl := false }
        = ({ confirmApp with
              popup := PopupState.none, input_mode := InputMode.normal }, [])
    ∧ confirmApp.on_key { code := KeyCode.enter, ctrl := false }
        = ({ confirmApp with
              popup := PopupState.none, input_mode := InputMode.normal }, [42])
    ∧ emptyProjApp.on_key { code := KeyCode.char 107, ctrl := false }
        = (emptyProjApp, []) :=
  ⟨⟨by decide, by decide, by decide,
    C1_kill_confirmation_flow.1 killReqApp false 0 (mkProc 42 (str "x") Option.none)
      (by decide) (by decide) (by decide)⟩,
   C1_kill_confirmation_flow.2.1 confirmApp 42 (str "x")
     { code := KeyCode.esc, ctrl := false } (by decide) (by decide) (Or.inl rfl),
   C1_kill_confirmation_flow.2.2.1 confirmApp 42 (str "x")
     { code := KeyCode.enter, ctrl := false } (by decide) (by decide) (Or.inl rfl),
   C1_kill_confirmation_flow.2.2.2 emptyProjApp false 0 (by decide) (by decide) (by decide)⟩

/-! ## Claim C10 -/

/-- C10: confirming while the help popup is open never invokes
`kill_process` and changes exactly the popup (to none) and the input mode
(to normal), leaving search text, cursor and all cached metrics untouched;
and any step that does invoke `kill_process` was confirming a kill popup. -/
theorem C10_help_confirm_no_kill :
    (∀ (app : App) (k : KeyEvent),
      app.input_mode = InputMode.popup →
      app.popup = PopupState.help →
      (k.code = KeyCode.enter ∨ k.code = KeyCode.char 121 ∨ k.code = KeyCode.char 89) →
      app.on_key k
        = ({ app with
              popup := PopupState.none, input_mode := InputMode.normal }, []))
    ∧ (∀ (app : App) (k : KeyEvent),
      (app.on_key k).2 ≠ [] → ∃ pid nm, app.popup = PopupState.kill pid nm) := by
  constructor
  · intro app k hmode hpopup hkey
    rcases k with ⟨code, ctrl⟩
    simp only at hkey
    rcases hkey with rfl | rfl | rfl <;>
      simp [App.on_key, hmode, App.confirm_popup, hpopup, App.close_popup]
  · intro app k h
    rcases k with ⟨code, ctrl⟩
    cases him : app.input_mode <;> cases code <;> simp only [App.on_key, him] at h
    all_goals try exact absurd rfl h
    case normal.char c =>
      split_ifs at h <;> exact absurd rfl h
    case popup.char c =>
      split_ifs at h
      · exact absurd rfl h
      · rcases confirm_popup_calls app with hc | hc
        · exact absurd hc h
        · exact hc
      · exact absurd rfl h
    case popup.enter =>
      rcases confirm_popup_calls app with hc | hc
      · exact absurd hc h
      · exact hc

theorem C10_help_confirm_no_kill_witness :
    helpApp.input_mode = InputMode.popup
    ∧ helpApp.popup = PopupState.help
    ∧ helpApp.on_key { code := KeyCode.enter, ctrl := false }
        = ({ helpApp with
              popup := PopupState.none, input_mode := InputMode.normal }, []) :=
  ⟨by decide, by decide,
   C10_help_confirm_no_kill.1 helpApp { code := KeyCode.enter, ctrl := false }
     (by decide) (by decide) (Or.inl rfl)⟩

/-! ## Claim C9 -/

/-- C9: the sort-cycle action cycles Cpu to Memory to Pid and back to Cpu,
the initial sort key is Cpu, and along every event sequence from the initial
state the sort key stays in the set Cpu / Memory / Pid — in particular the
`Tree` sort key is unreachable through the interaction controller. -/
theorem C9_sort_key_reachable_set :
    (∀ app : App, app.sys.sort_by = ProcessSort.Cpu →
      app.toggle_sort.sys.sort_by = ProcessSort.Memory)
    ∧ (∀ app : App, app.sys.sort_by = ProcessSort.Memory →
      app.toggle_sort.sys.sort_by = ProcessSort.Pid)
    ∧ (∀ app : App, app.sys.sort_by = ProcessSort.Pid →
      app.toggle_sort.sys.sort_by = ProcessSort.Cpu)
    ∧ (∀ inp : Sample, (App.new inp).sys.sort_by = ProcessSort.Cpu)
    ∧ (∀ (inp : Sample) (evs : List Event),
      ((evs.foldl step (App.new inp)).sys.sort_by = ProcessSort.Cpu
       ∨ (evs.foldl step (App.new inp)).sys.sort_by = ProcessSort.Memory
       ∨ (evs.foldl step (App.new inp)).sys.sort_by = ProcessSort.Pid)
      ∧ (evs.foldl step (App.new inp)).sys.sort_by ≠ ProcessSort.Tree) := by
  refine ⟨?_, ?_, ?_, ?_, ?_⟩
  · intro app h; simp [App.toggle_sort, h]
  · intro app h; simp [App.toggle_sort, h]
  · intro app h; simp [App.toggle_sort, h]
  · intro inp; rfl
  · intro inp evs
    have h0 : (App.new inp).sys.sort_by = ProcessSort.Cpu := rfl
    have h := foldl_step_sort_by evs (App.new inp) (Or.inl h0)
    refine ⟨h, ?_⟩
    rcases h with h | h | h <;> rw [h] <;> intro hc <;> exact ProcessSort.noConfusion hc

theorem C9_sort_key_reachable_set_witness :
    (killReqApp.sys.sort_by = ProcessSort.Cpu
     ∧ killReqApp.toggle_sort.sys.sort_by = ProcessSort.Memory)
    ∧ (killReqApp.toggle_sort.sys.sort_by = ProcessSort.Memory
     ∧ killReqApp.toggle_sort.toggle_sort.sys.sort_by = ProcessSort.Pid)
    ∧ (killReqApp.toggle_sort.toggle_sort.sys.sort_by = ProcessSort.Pid
     ∧ killReqApp.toggle_sort.toggle_sort.toggle_sort.sys.sort_by = ProcessSort.Cpu) :=
  ⟨⟨by decide, C9_sort_key_reachable_set.1 killReqApp (by decide)⟩,
   ⟨by decide, C9_sort_key_reachable_set.2.1 killReqApp.toggle_sort (by decide)⟩,
   ⟨by decide,
    C9_sort_key_reachable_set.2.2.1 killReqApp.toggle_sort.toggle_sort (by decide)⟩⟩

/-! ## Claim C2 — counterexample -/

/-- C2 counterexample: on the two-record table whose parent links form the
cycle 1 ↦ 2 ↦ 1 (N = 2), `build_process_tree` emits no record at all —
neither cycle member is ever treated as a root, so tree-mode ordering does
not emit exactly N records on arbitrary parent assignments. -/
theorem C2_cycle_emits_nothing :
    cycleTbl.length = 2 ∧ build_process_tree cycleTbl = [] := by
  decide


/-! ## Tree lemmas: lookup, children, roots -/

theorem lookupPid_eq_some {tbl : List ProcessInfo} {x : Nat} {p : ProcessInfo}
    (h : lookupPid tbl x = some p) : p ∈ tbl ∧ p.pid = x := by
  refine ⟨List.mem_of_find?_eq_some h, ?_⟩
  have := List.find?_some h
  simpa using this

theorem lookupPid_isSome_iff {tbl : List ProcessInfo} {x : Nat} :
    (lookupPid tbl x).isSome = true ↔ x ∈ tbl.map (fun p => p.pid) := by
  unfold lookupPid
  rw [List.find?_isSome]
  constructor
  · rintro ⟨p, hp, hpx⟩
    rw [List.mem_map]
    exact ⟨p, hp, by simpa using hpx⟩
  · intro hx
    rcases List.mem_map.1 hx with ⟨p, hp, hpx⟩
    exact ⟨p, hp, by simpa using hpx⟩

theorem lookupPid_eq_none {tbl : List ProcessInfo} {x : Nat}
    (h : x ∉ tbl.map (fun p => p.pid)) : lookupPid tbl x = Option.none := by
  rcases hl : lookupPid tbl x with _ | p
  · rfl
  · exact absurd (lookupPid_isSome_iff.1 (by rw [hl]; rfl)) h

theorem lookupPid_of_mem {tbl : List ProcessInfo}
    (hN : (tbl.map (fun p => p.pid)).Nodup) {p : ProcessInfo} (hp : p ∈ tbl) :
    lookupPid tbl p.pid = some p := by
  induction tbl with
  | nil => cases hp
  | cons a t ih =>
    simp only [List.map_cons, List.nodup_cons] at hN
    rcases List.mem_cons.1 hp with rfl | hp
    · simp [lookupPid, List.find?]
    · have hne : (a.pid == p.pid) = false := by
        simp only [beq_eq_false_iff_ne, ne_eq]
        intro he
        exact hN.1 (by rw [he]; exact List.mem_map_of_mem (fun r => r.pid) hp)
      simp only [lookupPid, List.find?, hne]
      exact ih hN.2 hp

theorem mem_childrenOf {tbl : List ProcessInfo} {q k : Nat} :
    k ∈ childrenOf tbl q ↔ ∃ p, p ∈ tbl ∧ p.pid = k ∧ p.parent = some q := by
  unfold childrenOf
  rw [mem_sortByLe, List.mem_map]
  constructor
  · rintro ⟨p, hp, rfl⟩
    rcases List.mem_filter.1 hp with ⟨hmem, hpar⟩
    exact ⟨p, hmem, rfl, by simpa using hpar⟩
  · rintro ⟨p, hmem, rfl, hpar⟩
    exact ⟨p, List.mem_filter.2 ⟨hmem, by simpa using hpar⟩, rfl⟩

theorem childrenOf_sorted (tbl : List ProcessInfo) (q : Nat) :
    (childrenOf tbl q).Pairwise (· ≤ ·) :=
  natSort_sorted _

theorem childrenOf_nodup {tbl : List ProcessInfo}
    (hN : (tbl.map (fun p => p.pid)).Nodup) (q : Nat) : (childrenOf tbl q).Nodup := by
  unfold childrenOf
  rw [(sortByLe_perm _ _).nodup_iff]
  exact List.Nodup.sublist ((List.filter_sublist tbl).map (fun p => p.pid)) hN

theorem mem_rootsOf {tbl : List ProcessInfo} {r : Nat} :
    r ∈ rootsOf tbl ↔ ∃ p, p ∈ tbl ∧ p.pid = r ∧ isRootB tbl p = true := by
  unfold rootsOf
  rw [mem_sortByLe, List.mem_map]
  constructor
  · rintro ⟨p, hp, rfl⟩
    rcases List.mem_filter.1 hp with ⟨hmem, hroot⟩
    exact ⟨p, hmem, rfl, hroot⟩
  · rintro ⟨p, hmem, rfl, hroot⟩
    exact ⟨p, List.mem_filter.2 ⟨hmem, hroot⟩, rfl⟩

theorem rootsOf_sorted (tbl : List ProcessInfo) : (rootsOf tbl).Pairwise (· ≤ ·) :=
  natSort_sorted _

theorem rootsOf_nodup {tbl : List ProcessInfo}
    (hN : (tbl.map (fun p => p.pid)).Nodup) : (rootsOf tbl).Nodup := by
  unfold rootsOf
  rw [(sortByLe_perm _ _).nodup_iff]
  exact List.Nodup.sublist ((List.filter_sublist tbl).map (fun p => p.pid)) hN

/-! ## Tree lemmas: the `climb` depth function -/

theorem climb_mono {tbl : List ProcessInfo} :
    ∀ {f g x d : Nat}, f ≤ g → climb tbl f x = some d → climb tbl g x = some d := by
  intro f
  induction f with
  | zero => intro g x d _ h; simp [climb] at h
  | succ f ih =>
    intro g x d hfg h
    rcases g with _ | g
    · omega
    rcases hlk : lookupPid tbl x with _ | p
    · simp [climb, hlk] at h
    rcases hpar : p.parent with _ | pp
    · simp only [climb, hlk, hpar] at h ⊢
      exact h
    rcases hlk2 : lookupPid tbl pp with _ | p2
    · simp only [climb, hlk, hpar, hlk2] at h ⊢
      exact h
    rcases hc : climb tbl f pp with _ | d'
    · simp [climb, hlk, hpar, hlk2, hc] at h
    simp only [climb, hlk, hpar, hlk2, hc, Option.map_some'] at h
    simp only [climb, hlk, hpar, hlk2, ih (show f ≤ g by omega) hc, Option.map_some']
    exact h

theorem climb_det {tbl : List ProcessInfo} {f g x a b : Nat}
    (ha : climb tbl f x = some a) (hb : climb tbl g x = some b) : a = b := by
  have h1 := climb_mono (Nat.le_max_left f g) ha
  have h2 := climb_mono (Nat.le_max_right f g) hb
  rw [h1] at h2
  exact Option.some_inj.1 h2

theorem climb_lookup_isSome {tbl : List ProcessInfo} {f x d : Nat}
    (h : climb tbl f x = some d) : (lookupPid tbl x).isSome = true := by
  rcases f with _ | f
  · simp [climb] at h
  rcases hlk : lookupPid tbl x with _ | p
  · simp [climb, hlk] at h
  · rfl

theorem climb_chain {tbl : List ProcessInfo} :
    ∀ {f x d : Nat}, climb tbl f x = some d →
    ∃ l : List Nat, l.length = d + 1 ∧ l.Nodup
      ∧ (∀ y ∈ l, y ∈ tbl.map (fun p => p.pid))
      ∧ (∀ y ∈ l, ∃ fy e, climb tbl fy y = some e ∧ e ≤ d) := by
  intro f
  induction f with
  | zero => intro x d h; simp [climb] at h
  | succ f ih =>
    intro x d h
    have hself : climb tbl (f + 1) x = some d := h
    have hx : x ∈ tbl.map (fun p => p.pid) :=
      lookupPid_isSome_iff.1 (climb_lookup_isSome h)
    rcases hlk : lookupPid tbl x with _ | p
    · simp [climb, hlk] at h
    rcases hpar : p.parent with _ | pp
    · simp only [climb, hlk, hpar, Option.some_inj] at h
      refine ⟨[x], by simp [h], by simp, by simpa using hx, ?_⟩
      intro y hy
      rcases List.mem_cons.1 hy with rfl | hy
      · exact ⟨f + 1, d, hself, le_refl d⟩
      · cases hy
    rcases hlk2 : lookupPid tbl pp with _ | p2
    · simp only [climb, hlk, hpar, hlk2, Option.some_inj] at h
      refine ⟨[x], by simp [h], by simp, by simpa using hx, ?_⟩
      intro y hy
      rcases List.mem_cons.1 hy with rfl | hy
      · exact ⟨f + 1, d, hself, le_refl d⟩
      · cases hy
    rcases hc : climb tbl f pp with _ | d'
    · simp [climb, hlk, hpar, hlk2, hc] at h
    simp only [climb, hlk, hpar, hlk2, hc, Option.map_some', Option.some_inj] at h
    rcases ih hc with ⟨l, hlen, hnd, hmem, hlab⟩
    refine ⟨x :: l, by simp [hlen]; omega, ?_, ?_, ?_⟩
    · rw [List.nodup_cons]
      refine ⟨?_, hnd⟩
      intro hxl
      rcases hlab x hxl with ⟨fy, e, hcy, he⟩
      have := climb_det hcy hself
      omega
    · intro y hy
      rcases List.mem_cons.1 hy with rfl | hy
      · exact hx
      · exact hmem y hy
    · intro y hy
      rcases List.mem_cons.1 hy with rfl | hy
      · exact ⟨f + 1, d, hself, le_refl d⟩
      · rcases hlab y hy with ⟨fy, e, hcy, he⟩
        exact ⟨fy, e, hcy, by omega⟩

theorem climb_depth_lt {tbl : List ProcessInfo} {f x d : Nat}
    (h : climb tbl f x = some d) : d < tbl.length := by
  rcases climb_chain h with ⟨l, hlen, hnd, hmem, _⟩
  have hsub : l ⊆ tbl.map (fun p => p.pid) := by
    intro y hy
    exact hmem y hy
  have := (hnd.subperm hsub).length_le
  rw [hlen, List.length_map] at this
  omega

theorem climb_succ_eq {tbl : List ProcessInfo} {x pp : Nat} {p p2 : ProcessInfo}
    (f : Nat) (hlk : lookupPid tbl x = some p) (hpar : p.parent = some pp)
    (hlk2 : lookupPid tbl pp = some p2) :
    climb tbl (f + 1) x = (climb tbl f pp).map (· + 1) := by
  simp only [climb, hlk, hpar, hlk2]

theorem climb_min_fuel {tbl : List ProcessInfo} :
    ∀ {f x d : Nat}, climb tbl f x = some d → climb tbl (d + 1) x = some d := by
  intro f
  induction f with
  | zero => intro x d h; simp [climb] at h
  | succ f ih =>
    intro x d h
    rcases hlk : lookupPid tbl x with _ | p
    · simp [climb, hlk] at h
    rcases hpar : p.parent with _ | pp
    · simp only [climb, hlk, hpar, Option.some_inj] at h
      simp only [climb, hlk, hpar, h]
    rcases hlk2 : lookupPid tbl pp with _ | p2
    · simp only [climb, hlk, hpar, hlk2, Option.some_inj] at h
      simp only [climb, hlk, hpar, hlk2, h]
    rcases hc : climb tbl f pp with _ | d'
    · simp [climb, hlk, hpar, hlk2, hc] at h
    simp only [climb, hlk, hpar, hlk2, hc, Option.map_some', Option.some_inj] at h
    subst h
    rw [climb_succ_eq (d' + 1) hlk hpar hlk2, ih hc]
    rfl

theorem depthToRoot_of_climb {tbl : List ProcessInfo} {f x d : Nat}
    (h : climb tbl f x = some d) : depthToRoot tbl x = some d := by
  have hlt := climb_depth_lt h
  exact climb_mono (by omega) (climb_min_fuel h)

/-! ## Tree lemmas: `parOf` and step relations -/

theorem parOf_elim {tbl : List ProcessInfo} {x q : Nat} (h : parOf tbl x = some q) :
    ∃ p, lookupPid tbl x = some p ∧ p.parent = some q
      ∧ (lookupPid tbl q).isSome = true := by
  rcases hlk : lookupPid tbl x with _ | p
  · simp [parOf, hlk] at h
  rcases hpar : p.parent with _ | pp
  · simp [parOf, hlk, hpar] at h
  rcases hq : lookupPid tbl pp with _ | p2
  · simp [parOf, hlk, hpar, hq] at h
  · simp only [parOf, hlk, hpar, hq, Option.isSome_some, if_true, Option.some_inj] at h
    subst h
    exact ⟨p, rfl, hpar, by rw [hq]; rfl⟩

theorem parOf_intro {tbl : List ProcessInfo} {x q : Nat} {p : ProcessInfo}
    (hlk : lookupPid tbl x = some p) (hpar : p.parent = some q)
    (hq : (lookupPid tbl q).isSome = true) : parOf tbl x = some q := by
  simp [parOf, hlk, hpar, hq]

theorem climb_of_parOf {tbl : List ProcessInfo} {x q : Nat}
    (h : parOf tbl x = some q) (f : Nat) :
    climb tbl (f + 1) x = (climb tbl f q).map (· + 1) := by
  rcases parOf_elim h with ⟨p, hlk, hpar, hq⟩
  rcases Option.isSome_iff_exists.1 hq with ⟨pq, hpq⟩
  simp only [climb, hlk, hpar, hpq]

theorem depthToRoot_par {tbl : List ProcessInfo} {x q d : Nat}
    (hpar : parOf tbl x = some q) (hd : depthToRoot tbl q = some d) :
    depthToRoot tbl x = some (d + 1) := by
  have h1 : climb tbl (d + 1) q = some d := climb_min_fuel hd
  have h2 : climb tbl (d + 2) x = some (d + 1) := by
    rw [climb_of_parOf hpar (d + 1), h1]
    rfl
  exact depthToRoot_of_climb h2

theorem depthToRoot_par_inv {tbl : List ProcessInfo} {x q e : Nat}
    (hpar : parOf tbl x = some q) (hx : depthToRoot tbl x = some e) :
    ∃ d, depthToRoot tbl q = some d ∧ e = d + 1 := by
  unfold depthToRoot at hx
  rcases hf : tbl.length with _ | f
  · rw [hf] at hx; simp [climb] at hx
  rw [hf, climb_of_parOf hpar f] at hx
  rcases hc : climb tbl f q with _ | d
  · rw [hc] at hx; simp at hx
  rw [hc, Option.map_some'] at hx
  exact ⟨d, depthToRoot_of_climb hc, by simpa using hx.symm⟩

theorem depthToRoot_root {tbl : List ProcessInfo} {x : Nat} {p : ProcessInfo}
    (hlk : lookupPid tbl x = some p) (hroot : isRootB tbl p = true) :
    depthToRoot tbl x = some 0 := by
  have hx : x ∈ tbl.map (fun r => r.pid) := lookupPid_isSome_iff.1 (by rw [hlk]; rfl)
  have hlen : 0 < tbl.length := by
    rcases tbl with _ | ⟨a, t⟩
    · simp at hx
    · simp
  rcases hf : tbl.length with _ | f
  · omega
  unfold depthToRoot
  rw [hf]
  rcases hpar : p.parent with _ | pp
  · simp [climb, hlk, hpar]
  rcases hlk2 : lookupPid tbl pp with _ | p2
  · simp [climb, hlk, hpar, hlk2]
  · simp only [isRootB, hpar, hlk2] at hroot
    simp at hroot

theorem root_of_depth_zero {tbl : List ProcessInfo} {x : Nat} {p : ProcessInfo}
    (hlk : lookupPid tbl x = some p) (hd : depthToRoot tbl x = some 0) :
    isRootB tbl p = true := by
  unfold depthToRoot at hd
  rcases hf : tbl.length with _ | f
  · rw [hf] at hd; simp [climb] at hd
  rw [hf] at hd
  rcases hpar : p.parent with _ | pp
  · simp [isRootB, hpar]
  rcases hlk2 : lookupPid tbl pp with _ | p2
  · simp [isRootB, hpar, hlk2]
  exfalso
  rcases hc : climb tbl f pp with _ | d'
  · simp [climb, hlk, hpar, hlk2, hc] at hd
  · simp [climb, hlk, hpar, hlk2, hc] at hd

theorem parOf_of_root {tbl : List ProcessInfo}
    (hN : (tbl.map (fun p => p.pid)).Nodup) {p : ProcessInfo}
    (hmem : p ∈ tbl) (hroot : isRootB tbl p = true) :
    parOf tbl p.pid = Option.none := by
  have hlk := lookupPid_of_mem hN hmem
  rcases hpar : p.parent with _ | pp
  · simp [parOf, hlk, hpar]
  rcases hlk2 : lookupPid tbl pp with _ | p2
  · simp [parOf, hlk, hpar, hlk2]
  · simp only [isRootB, hpar, hlk2] at hroot
    simp at hroot

theorem parOf_of_child {tbl : List ProcessInfo}
    (hN : (tbl.map (fun p => p.pid)).Nodup) {q k : Nat}
    (hq : (lookupPid tbl q).isSome = true) (hk : k ∈ childrenOf tbl q) :
    parOf tbl k = some q := by
  rcases mem_childrenOf.1 hk with ⟨p, hmem, rfl, hpar⟩
  exact parOf_intro (lookupPid_of_mem hN hmem) hpar hq

theorem child_of_parOf {tbl : List ProcessInfo} {k q : Nat}
    (h : parOf tbl k = some q) : k ∈ childrenOf tbl q := by
  rcases parOf_elim h with ⟨p, hlk, hpar, _⟩
  rcases lookupPid_eq_some hlk with ⟨hmem, hpid⟩
  exact mem_childrenOf.2 ⟨p, hmem, hpid, hpar⟩


/-! ## Tree lemmas: first-hit distance `hitD` and `parIter` -/

theorem hitD_self (tbl : List ProcessInfo) (f x : Nat) :
    hitD tbl (f + 1) x x = some 0 := by
  simp [hitD]

theorem hitD_zero {tbl : List ProcessInfo} {f x t : Nat}
    (h : hitD tbl f x t = some 0) : x = t := by
  rcases f with _ | f
  · simp [hitD] at h
  by_cases hxt : x = t
  · exact hxt
  rcases hpo : parOf tbl x with _ | pp
  · simp [hitD, hxt, hpo] at h
  · simp [hitD, hxt, hpo] at h

theorem hitD_succ_eq {tbl : List ProcessInfo} {x t pp : Nat} (f : Nat)
    (hne : x ≠ t) (hpar : parOf tbl x = some pp) :
    hitD tbl (f + 1) x t = (hitD tbl f pp t).map (· + 1) := by
  simp [hitD, hne, hpar]

theorem hitD_mono {tbl : List ProcessInfo} :
    ∀ {f g x t j : Nat}, f ≤ g → hitD tbl f x t = some j → hitD tbl g x t = some j := by
  intro f
  induction f with
  | zero => intro g x t j _ h; simp [hitD] at h
  | succ f ih =>
    intro g x t j hfg h
    rcases g with _ | g
    · omega
    by_cases hxt : x = t
    · subst hxt
      rw [hitD_self] at h ⊢
      exact h
    rcases hpo : parOf tbl x with _ | pp
    · simp [hitD, hxt, hpo] at h
    rw [hitD_succ_eq f hxt hpo] at h
    rw [hitD_succ_eq g hxt hpo]
    rcases hh : hitD tbl f pp t with _ | j'
    · rw [hh] at h; simp at h
    rw [hh, Option.map_some'] at h
    rw [ih (by omega) hh, Option.map_some']
    exact h

theorem hitD_det {tbl : List ProcessInfo} {f g x t a b : Nat}
    (ha : hitD tbl f x t = some a) (hb : hitD tbl g x t = some b) : a = b := by
  have h1 := hitD_mono (Nat.le_max_left f g) ha
  have h2 := hitD_mono (Nat.le_max_right f g) hb
  rw [h1] at h2
  exact Option.some_inj.1 h2

theorem hitD_min_fuel {tbl : List ProcessInfo} :
    ∀ {f x t j : Nat}, hitD tbl f x t = some j → hitD tbl (j + 1) x t = some j := by
  intro f
  induction f with
  | zero => intro x t j h; simp [hitD] at h
  | succ f ih =>
    intro x t j h
    by_cases hxt : x = t
    · subst hxt
      rw [hitD_self] at h
      have : j = 0 := by simpa using h.symm
      subst this
      exact hitD_self tbl 0 x
    rcases hpo : parOf tbl x with _ | pp
    · simp [hitD, hxt, hpo] at h
    rw [hitD_succ_eq f hxt hpo] at h
    rcases hh : hitD tbl f pp t with _ | j'
    · rw [hh] at h; simp at h
    rw [hh, Option.map_some'] at h
    have hj : j = j' + 1 := by simpa using h.symm
    subst hj
    rw [hitD_succ_eq (j' + 1) hxt hpo, ih hh]
    rfl

theorem hitD_depth {tbl : List ProcessInfo} :
    ∀ {f x t j d : Nat}, hitD tbl f x t = some j → depthToRoot tbl t = some d →
    depthToRoot tbl x = some (d + j) := by
  intro f
  induction f with
  | zero => intro x t j d h _; simp [hitD] at h
  | succ f ih =>
    intro x t j d h hd
    by_cases hxt : x = t
    · subst hxt
      rw [hitD_self] at h
      have : j = 0 := by simpa using h.symm
      subst this
      simpa using hd
    rcases hpo : parOf tbl x with _ | pp
    · simp [hitD, hxt, hpo] at h
    rw [hitD_succ_eq f hxt hpo] at h
    rcases hh : hitD tbl f pp t with _ | j'
    · rw [hh] at h; simp at h
    rw [hh, Option.map_some'] at h
    have hj : j = j' + 1 := by simpa using h.symm
    subst hj
    have hpp := ih hh hd
    exact depthToRoot_par hpo hpp

theorem hitD_to_hitDist {tbl : List ProcessInfo} {f x t j d : Nat}
    (h : hitD tbl f x t = some j) (hd : depthToRoot tbl t = some d) :
    hitDist tbl x t = some j := by
  have hx := hitD_depth h hd
  have hlt : d + j < tbl.length := climb_depth_lt hx
  exact hitD_mono (by omega) (hitD_min_fuel h)

theorem hitDist_self {tbl : List ProcessInfo} (x : Nat) :
    hitDist tbl x x = some 0 :=
  hitD_self tbl tbl.length x

theorem hitD_parIter {tbl : List ProcessInfo} :
    ∀ {f x t j : Nat}, hitD tbl f x t = some j → parIter tbl j x = some t := by
  intro f
  induction f with
  | zero => intro x t j h; simp [hitD] at h
  | succ f ih =>
    intro x t j h
    by_cases hxt : x = t
    · subst hxt
      rw [hitD_self] at h
      have : j = 0 := by simpa using h.symm
      subst this
      rfl
    rcases hpo : parOf tbl x with _ | pp
    · simp [hitD, hxt, hpo] at h
    rw [hitD_succ_eq f hxt hpo] at h
    rcases hh : hitD tbl f pp t with _ | j'
    · rw [hh] at h; simp at h
    rw [hh, Option.map_some'] at h
    have hj : j = j' + 1 := by simpa using h.symm
    subst hj
    simp only [parIter, hpo]
    exact ih hh

theorem parIter_succ_right {tbl : List ProcessInfo} :
    ∀ (j x : Nat), parIter tbl (j + 1) x = (parIter tbl j x).bind (parOf tbl) := by
  intro j
  induction j with
  | zero =>
    intro x
    simp only [parIter, Option.some_bind]
    rcases hpo : parOf tbl x with _ | pp
    · rfl
    · rfl
  | succ j ih =>
    intro x
    rcases hpo : parOf tbl x with _ | pp
    · simp only [parIter, hpo]
      rfl
    · simp only [parIter, hpo]
      exact ih pp

theorem parIter_hitD {tbl : List ProcessInfo} :
    ∀ {j x t : Nat}, parIter tbl j x = some t →
    ∃ c, c ≤ j ∧ hitD tbl (j + 1) x t = some c := by
  intro j
  induction j with
  | zero =>
    intro x t h
    have : x = t := by simpa [parIter] using h
    subst this
    exact ⟨0, le_refl 0, hitD_self tbl 0 x⟩
  | succ j ih =>
    intro x t h
    rcases hpo : parOf tbl x with _ | pp
    · simp [parIter, hpo] at h
    simp only [parIter, hpo] at h
    by_cases hxt : x = t
    · subst hxt
      exact ⟨0, by omega, hitD_self tbl (j + 1) x⟩
    rcases ih h with ⟨c, hc, hh⟩
    refine ⟨c + 1, by omega, ?_⟩
    rw [hitD_succ_eq (j + 1) hxt hpo, hh]
    rfl

theorem hitD_first {tbl : List ProcessInfo} :
    ∀ {f x t j : Nat}, hitD tbl f x t = some j →
    ∀ i, i < j → parIter tbl i x ≠ some t := by
  intro f
  induction f with
  | zero => intro x t j h; simp [hitD] at h
  | succ f ih =>
    intro x t j h i hij
    by_cases hxt : x = t
    · subst hxt
      rw [hitD_self] at h
      have : j = 0 := by simpa using h.symm
      omega
    rcases hpo : parOf tbl x with _ | pp
    · simp [hitD, hxt, hpo] at h
    rw [hitD_succ_eq f hxt hpo] at h
    rcases hh : hitD tbl f pp t with _ | j'
    · rw [hh] at h; simp at h
    rw [hh, Option.map_some'] at h
    have hj : j = j' + 1 := by simpa using h.symm
    subst hj
    rcases i with _ | i
    · simpa [parIter] using hxt
    · simp only [parIter, hpo]
      exact ih hh i (by omega)

theorem parIter_split {tbl : List ProcessInfo} :
    ∀ {m x t : Nat}, parIter tbl (m + 1) x = some t →
    ∃ y, parIter tbl m x = some y ∧ parOf tbl y = some t := by
  intro m
  induction m with
  | zero =>
    intro x t h
    rcases hpo : parOf tbl x with _ | pp
    · simp [parIter, hpo] at h
    simp only [parIter, hpo] at h
    exact ⟨x, rfl, by rw [hpo]; exact congrArg some (by simpa [parIter] using h)⟩
  | succ m ih =>
    intro x t h
    rcases hpo : parOf tbl x with _ | pp
    · simp [parIter, hpo] at h
    simp only [parIter, hpo] at h
    rcases ih h with ⟨y, hy, hpy⟩
    refine ⟨y, ?_, hpy⟩
    simp only [parIter, hpo]
    exact hy

/-! ## Tree lemmas: composed hit facts -/

theorem hit_extend {tbl : List ProcessInfo} {x k pid j d : Nat}
    (hk : hitDist tbl x k = some j) (hpar : parOf tbl k = some pid)
    (hd : depthToRoot tbl pid = some d) :
    hitDist tbl x pid = some (j + 1) := by
  have hpk : parIter tbl j x = some k := hitD_parIter hk
  have hpp : parIter tbl (j + 1) x = some pid := by
    rw [parIter_succ_right, hpk]
    simpa using hpar
  rcases parIter_hitD hpp with ⟨c, hc, hh⟩
  have hcd : hitDist tbl x pid = some c := hitD_to_hitDist hh hd
  have hdk : depthToRoot tbl k = some (d + 1) := depthToRoot_par hpar hd
  have hx1 : depthToRoot tbl x = some ((d + 1) + j) := hitD_depth hk hdk
  have hx2 : depthToRoot tbl x = some (d + c) := hitD_depth hcd hd
  have : (d + 1) + j = d + c := climb_det hx1 hx2
  have : c = j + 1 := by omega
  rw [← this]
  exact hcd

theorem hit_through_children {tbl : List ProcessInfo}
    (hN : (tbl.map (fun p => p.pid)).Nodup) {pid d x m : Nat}
    (hd : depthToRoot tbl pid = some d)
    (hx : hitDist tbl x pid = some (m + 1)) :
    ∃ k, k ∈ childrenOf tbl pid ∧ parOf tbl k = some pid
      ∧ hitDist tbl x k = some m := by
  have hpit : parIter tbl (m + 1) x = some pid := hitD_parIter hx
  rcases parIter_split hpit with ⟨y, hpy, hpary⟩
  refine ⟨y, child_of_parOf hpary, hpary, ?_⟩
  rcases parIter_hitD hpy with ⟨c, hc, hh⟩
  have hdy : depthToRoot tbl y = some (d + 1) := depthToRoot_par hpary hd
  have hcy : hitDist tbl x y = some c := hitD_to_hitDist hh hdy
  rcases Nat.lt_or_ge c m with hlt | hge
  · exfalso
    have hpc : parIter tbl c x = some y := hitD_parIter hcy
    have hpc1 : parIter tbl (c + 1) x = some pid := by
      rw [parIter_succ_right, hpc]
      simpa using hpary
    exact hitD_first hx (c + 1) (by omega) hpc1
  · have : c = m := by omega
    rw [← this]
    exact hcy

theorem hit_child_unique {tbl : List ProcessInfo} {pid d x k1 k2 a b : Nat}
    (hd : depthToRoot tbl pid = some d)
    (h1 : parOf tbl k1 = some pid) (h2 : parOf tbl k2 = some pid)
    (ha : hitDist tbl x k1 = some a) (hb : hitDist tbl x k2 = some b) : k1 = k2 := by
  have hd1 : depthToRoot tbl k1 = some (d + 1) := depthToRoot_par h1 hd
  have hd2 : depthToRoot tbl k2 = some (d + 1) := depthToRoot_par h2 hd
  have hx1 : depthToRoot tbl x = some ((d + 1) + a) := hitD_depth ha hd1
  have hx2 : depthToRoot tbl x = some ((d + 1) + b) := hitD_depth hb hd2
  have hab : a = b := by
    have := climb_det hx1 hx2
    omega
  subst hab
  have p1 : parIter tbl a x = some k1 := hitD_parIter ha
  have p2 : parIter tbl a x = some k2 := hitD_parIter hb
  rw [p1] at p2
  exact Option.some_inj.1 p2

theorem no_self_descendant {tbl : List ProcessInfo} {pid d k j : Nat}
    (hd : depthToRoot tbl pid = some d) (hpar : parOf tbl k = some pid)
    (hj : hitDist tbl pid k = some j) : False := by
  have hdk : depthToRoot tbl k = some (d + 1) := depthToRoot_par hpar hd
  have : depthToRoot tbl pid = some ((d + 1) + j) := hitD_depth hj hdk
  have := climb_det hd this
  omega

/-! ## Generic list helpers for the emission proofs -/

theorem count_flatMap {α : Type} [DecidableEq α] {β : Type} :
    ∀ (l : List β) (g : β → List α) (x : α),
    ((l.flatMap g).count x) = (l.map (fun a => (g a).count x)).sum := by
  intro l
  induction l with
  | nil => intro g x; simp
  | cons a t ih =>
    intro g x
    simp only [List.flatMap_cons, List.count_append, List.map_cons, List.sum_cons, ih]

theorem sum_ite_zero {α : Type} {cs : List α} {P : α → Prop} [DecidablePred P]
    (h : ∀ k ∈ cs, ¬P k) :
    (cs.map (fun k => if P k then 1 else 0)).sum = 0 := by
  induction cs with
  | nil => simp
  | cons a t ih =>
    simp only [List.map_cons, List.sum_cons]
    rw [if_neg (h a (List.mem_cons_self a t)), ih (fun k hk => h k (List.mem_cons_of_mem a hk))]

theorem sum_ite_one {α : Type} {cs : List α} {P : α → Prop} [DecidablePred P]
    (hnd : cs.Nodup) {k0 : α} (hk0 : k0 ∈ cs) (hP : P k0)
    (huniq : ∀ k ∈ cs, P k → k = k0) :
    (cs.map (fun k => if P k then 1 else 0)).sum = 1 := by
  induction cs with
  | nil => cases hk0
  | cons a t ih =>
    rcases List.nodup_cons.1 hnd with ⟨hat, hndt⟩
    simp only [List.map_cons, List.sum_cons]
    rcases List.mem_cons.1 hk0 with rfl | hk0t
    · rw [if_pos hP]
      rw [sum_ite_zero]
      intro k hk hPk
      exact hat ((huniq k (List.mem_cons_of_mem _ hk) hPk) ▸ hk)
    · rw [if_neg ?_, ih hndt hk0t (fun k hk hPk => huniq k (List.mem_cons_of_mem a hk) hPk)]
      intro hPa
      exact hat ((huniq a (List.mem_cons_self a t) hPa).symm ▸ hk0t)

theorem flatMap_eq_nil {α β : Type} {cs : List α} {g : α → List β}
    (h : ∀ k ∈ cs, g k = []) : cs.flatMap g = [] := by
  induction cs with
  | nil => rfl
  | cons a t ih =>
    rw [List.flatMap_cons, h a (List.mem_cons_self a t), List.nil_append]
    exact ih (fun k hk => h k (List.mem_cons_of_mem a hk))

theorem flatMap_eq_single {α β : Type} {cs : List α} {g : α → List β} {k0 : α}
    (hk0 : k0 ∈ cs) (h : ∀ k ∈ cs, k ≠ k0 → g k = []) (hnd : cs.Nodup) :
    cs.flatMap g = g k0 := by
  induction cs with
  | nil => cases hk0
  | cons a t ih =>
    rcases List.nodup_cons.1 hnd with ⟨hat, hndt⟩
    rcases List.mem_cons.1 hk0 with rfl | hk0t
    · rw [List.flatMap_cons, flatMap_eq_nil, List.append_nil]
      intro k hk
      exact h k (List.mem_cons_of_mem _ hk) (fun he => hat (he ▸ hk))
    · rw [List.flatMap_cons, h a (List.mem_cons_self a t) (fun he => hat (he ▸ hk0t)),
        List.nil_append]
      exact ih hk0t (fun k hk hne => h k (List.mem_cons_of_mem a hk) hne) hndt

theorem flatMap_filter {α β : Type} (cs : List α) (g : α → List β) (P : β → Bool) :
    (cs.flatMap g).filter P = cs.flatMap (fun a => (g a).filter P) := by
  induction cs with
  | nil => rfl
  | cons a t ih => rw [List.flatMap_cons, List.filter_append, ih, List.flatMap_cons]

theorem map_flatMap {α β γ : Type} (cs : List α) (g : α → List β) (f : β → γ) :
    (cs.flatMap g).map f = cs.flatMap (fun a => (g a).map f) := by
  induction cs with
  | nil => rfl
  | cons a t ih => rw [List.flatMap_cons, List.map_append, ih, List.flatMap_cons]

theorem flatMap_congr {α β : Type} {cs : List α} {g g' : α → List β}
    (h : ∀ a ∈ cs, g a = g' a) : cs.flatMap g = cs.flatMap g' := by
  induction cs with
  | nil => rfl
  | cons a t ih =>
    rw [List.flatMap_cons, List.flatMap_cons, h a (List.mem_cons_self a t),
      ih (fun k hk => h k (List.mem_cons_of_mem a hk))]

theorem flatMap_sublist_of_single {α : Type} {cs : List α} {g : α → List α}
    (h : ∀ a ∈ cs, g a = [] ∨ g a = [a]) : (cs.flatMap g).Sublist cs := by
  induction cs with
  | nil => exact List.Sublist.refl []
  | cons a t ih =>
    rw [List.flatMap_cons]
    rcases h a (List.mem_cons_self a t) with ha | ha
    · rw [ha, List.nil_append]
      exact (ih (fun k hk => h k (List.mem_cons_of_mem a hk))).cons a
    · rw [ha, List.singleton_append]
      exact (ih (fun k hk => h k (List.mem_cons_of_mem a hk))).cons₂ a


/-! ## The emission lemma for `appendNode` -/

theorem appendNode_unfold {tbl : List ProcessInfo} {pid : Nat} {p : ProcessInfo}
    (f depth : Nat) (hlk : lookupPid tbl pid = some p) :
    appendNode tbl (f + 1) pid depth
      = { p with indent := depth }
        :: (childrenOf tbl pid).flatMap (fun kid => appendNode tbl f kid (depth + 1)) := by
  simp [appendNode, hlk]

theorem appendNode_emit {tbl : List ProcessInfo}
    (hN : (tbl.map (fun p => p.pid)).Nodup) :
    ∀ (f : Nat) {pid d : Nat} (depth : Nat),
    depthToRoot tbl pid = some d → tbl.length ≤ f + d →
    (∀ x : Nat, ((appendNode tbl f pid depth).map (fun r => r.pid)).count x
        = if (hitDist tbl x pid).isSome = true then 1 else 0)
    ∧ (∀ r ∈ appendNode tbl f pid depth, ∃ (j : Nat) (p : ProcessInfo),
        hitDist tbl r.pid pid = some j ∧ lookupPid tbl r.pid = some p
        ∧ r = { p with indent := depth + j }
        ∧ depthToRoot tbl r.pid = some (d + j)) := by
  intro f
  induction f with
  | zero =>
    intro pid d depth hd hle
    exact absurd hle (by have := climb_depth_lt hd; omega)
  | succ f ih =>
    intro pid d depth hd hle
    have hlkS : (lookupPid tbl pid).isSome = true := climb_lookup_isSome hd
    obtain ⟨p, hlk⟩ := Option.isSome_iff_exists.1 hlkS
    have hppid : p.pid = pid := (lookupPid_eq_some hlk).2
    have hchild : ∀ k ∈ childrenOf tbl pid,
        parOf tbl k = some pid ∧ depthToRoot tbl k = some (d + 1) := by
      intro k hk
      have hpk := parOf_of_child hN hlkS hk
      exact ⟨hpk, depthToRoot_par hpk hd⟩
    rw [appendNode_unfold f depth hlk]
    constructor
    · intro x
      simp only [List.map_cons, List.count_cons, hppid]
      rw [map_flatMap, count_flatMap]
      have hmapeq :
          (childrenOf tbl pid).map
              (fun k => ((appendNode tbl f k (depth + 1)).map (fun r => r.pid)).count x)
            = (childrenOf tbl pid).map
              (fun k => if (hitDist tbl x k).isSome = true then 1 else 0) := by
        apply List.map_congr_left
        intro k hk
        exact (ih (depth + 1) (hchild k hk).2 (by omega)).1 x
      rw [hmapeq]
      by_cases hx : x = pid
      · rw [hx, hitDist_self]
        have hsum :
            ((childrenOf tbl pid).map
              (fun k => if (hitDist tbl pid k).isSome = true then 1 else 0)).sum = 0 := by
          apply sum_ite_zero
          intro k hk hsome
          obtain ⟨j, hj⟩ := Option.isSome_iff_exists.1 hsome
          exact no_self_descendant hd (hchild k hk).1 hj
        rw [hsum]
        simp
      · have hbeq : (pid == x) = false := by
          simp only [beq_eq_false_iff_ne, ne_eq]
          intro h
          exact hx h.symm
        rw [hbeq]
        rcases hhit : hitDist tbl x pid with _ | m
        · have hsum :
              ((childrenOf tbl pid).map
                (fun k => if (hitDist tbl x k).isSome = true then 1 else 0)).sum = 0 := by
            apply sum_ite_zero
            intro k hk hsome
            obtain ⟨c, hc⟩ := Option.isSome_iff_exists.1 hsome
            have := hit_extend hc (hchild k hk).1 hd
            rw [hhit] at this
            exact Option.noConfusion this
          rw [hsum]
          simp
        · rcases m with _ | m'
          · exact absurd (hitD_zero hhit) hx
          rcases hit_through_children hN hd hhit with ⟨k0, hk0mem, hk0par, hk0hit⟩
          have hsum :
              ((childrenOf tbl pid).map
                (fun k => if (hitDist tbl x k).isSome = true then 1 else 0)).sum = 1 := by
            apply sum_ite_one (childrenOf_nodup hN pid) hk0mem
            · rw [hk0hit]; rfl
            · intro k hk hks
              obtain ⟨a, ha⟩ := Option.isSome_iff_exists.1 hks
              exact hit_child_unique hd (hchild k hk).1 hk0par ha hk0hit
          rw [hsum]
          simp
    · intro r hr
      rcases List.mem_cons.1 hr with rfl | hr
      · refine ⟨0, p, ?_, ?_, by simp, ?_⟩
        · have : ({ p with indent := depth } : ProcessInfo).pid = pid := hppid
          rw [this, hitDist_self]
        · have : ({ p with indent := depth } : ProcessInfo).pid = pid := hppid
          rw [this, hlk]
        · have : ({ p with indent := depth } : ProcessInfo).pid = pid := hppid
          rw [this]
          simpa using hd
      · rcases List.mem_flatMap.1 hr with ⟨k, hkmem, hrk⟩
        obtain ⟨hkpar, hkd⟩ := hchild k hkmem
        obtain ⟨j', p', hhit', hlk', hrec', hdep'⟩ :=
          (ih (depth + 1) hkd (by omega)).2 r hrk
        refine ⟨j' + 1, p', ?_, hlk', ?_, ?_⟩
        · exact hit_extend hhit' hkpar hd
        · have harith : (depth + 1) + j' = depth + (j' + 1) := by omega
          rw [harith] at hrec'
          exact hrec'
        · have harith : (d + 1) + j' = d + (j' + 1) := by omega
          rw [harith] at hdep'
          exact hdep'


/-! ## Root chains -/

theorem flatMap_singleton_id {α : Type} (l : List α) :
    l.flatMap (fun a => [a]) = l := by
  induction l with
  | nil => rfl
  | cons a t ih => rw [List.flatMap_cons, ih]; rfl

theorem parOf_none_of_lookup_none {tbl : List ProcessInfo} {x : Nat}
    (h : lookupPid tbl x = Option.none) : parOf tbl x = Option.none := by
  simp [parOf, h]

theorem hitDist_none_of_no_par {tbl : List ProcessInfo} {x t : Nat}
    (hxt : x ≠ t) (hpo : parOf tbl x = Option.none) :
    hitDist tbl x t = Option.none := by
  simp [hitDist, hitD, hxt, hpo]

theorem root_facts {tbl : List ProcessInfo}
    (hN : (tbl.map (fun p => p.pid)).Nodup) {r : Nat} (hr : r ∈ rootsOf tbl) :
    ∃ p, lookupPid tbl r = some p ∧ isRootB tbl p = true
      ∧ depthToRoot tbl r = some 0 ∧ parOf tbl r = Option.none := by
  rcases mem_rootsOf.1 hr with ⟨p, hmem, rfl, hroot⟩
  have hlk := lookupPid_of_mem hN hmem
  exact ⟨p, hlk, hroot, depthToRoot_root hlk hroot, parOf_of_root hN hmem hroot⟩

theorem chain_root {tbl : List ProcessInfo}
    (hN : (tbl.map (fun p => p.pid)).Nodup) :
    ∀ {f x e : Nat}, climb tbl f x = some e →
    ∃ t, hitDist tbl x t = some e ∧ t ∈ rootsOf tbl := by
  intro f
  induction f with
  | zero => intro x e h; simp [climb] at h
  | succ f ih =>
    intro x e h
    have hself : climb tbl (f + 1) x = some e := h
    rcases hlk : lookupPid tbl x with _ | p
    · simp [climb, hlk] at h
    have hmempid := lookupPid_eq_some hlk
    rcases hpar : p.parent with _ | pp
    · simp only [climb, hlk, hpar, Option.some_inj] at h
      subst h
      refine ⟨x, hitDist_self x, ?_⟩
      exact mem_rootsOf.2 ⟨p, hmempid.1, hmempid.2, by simp [isRootB, hpar]⟩
    rcases hlk2 : lookupPid tbl pp with _ | p2
    · simp only [climb, hlk, hpar, hlk2, Option.some_inj] at h
      subst h
      refine ⟨x, hitDist_self x, ?_⟩
      exact mem_rootsOf.2 ⟨p, hmempid.1, hmempid.2, by simp [isRootB, hpar, hlk2]⟩
    rcases hc : climb tbl f pp with _ | e'
    · simp [climb, hlk, hpar, hlk2, hc] at h
    simp only [climb, hlk, hpar, hlk2, hc, Option.map_some', Option.some_inj] at h
    subst h
    have hpo : parOf tbl x = some pp := parOf_intro hlk hpar (by rw [hlk2]; rfl)
    rcases ih hc with ⟨t, hhpp, htroot⟩
    rcases root_facts hN htroot with ⟨pt, hlkt, _, hdt, hpot⟩
    have hxt : x ≠ t := by
      intro he
      rw [he] at hpo
      rw [hpo] at hpot
      exact Option.noConfusion hpot
    have hpit : parIter tbl (e' + 1) x = some t := by
      simp only [parIter, hpo]
      exact hitD_parIter hhpp
    rcases parIter_hitD hpit with ⟨c, hc2, hh⟩
    have hcd : hitDist tbl x t = some c := hitD_to_hitDist hh hdt
    have hx1 : depthToRoot tbl x = some (0 + c) := hitD_depth hcd hdt
    have hx2 : depthToRoot tbl x = some (e' + 1) := depthToRoot_of_climb hself
    have hce : c = e' + 1 := by
      have := climb_det hx1 hx2
      omega
    subst hce
    exact ⟨t, hcd, htroot⟩

theorem root_hit_unique {tbl : List ProcessInfo}
    (hN : (tbl.map (fun p => p.pid)).Nodup) {x t1 t2 a b : Nat}
    (h1 : t1 ∈ rootsOf tbl) (h2 : t2 ∈ rootsOf tbl)
    (ha : hitDist tbl x t1 = some a) (hb : hitDist tbl x t2 = some b) : t1 = t2 := by
  rcases root_facts hN h1 with ⟨p1, _, _, hd1, _⟩
  rcases root_facts hN h2 with ⟨p2, _, _, hd2, _⟩
  have hx1 : depthToRoot tbl x = some (0 + a) := hitD_depth ha hd1
  have hx2 : depthToRoot tbl x = some (0 + b) := hitD_depth hb hd2
  have hab : a = b := by
    have := climb_det hx1 hx2
    omega
  subst hab
  have p1' := hitD_parIter ha
  have p2' := hitD_parIter hb
  rw [p1'] at p2'
  exact Option.some_inj.1 p2'

/-! ## The sibling-group lemma for `appendNode` -/

theorem appendNode_sib {tbl : List ProcessInfo}
    (hN : (tbl.map (fun p => p.pid)).Nodup) :
    ∀ (f : Nat) {pid d : Nat} (depth q : Nat) {p : ProcessInfo},
    lookupPid tbl pid = some p →
    depthToRoot tbl pid = some d → tbl.length ≤ f + d →
    ((appendNode tbl f pid depth).filter (fun r => r.parent == some q)).map (fun r => r.pid)
      = if (hitDist tbl q pid).isSome = true then childrenOf tbl q
        else if (p.parent == some q) = true then [pid] else [] := by
  intro f
  induction f with
  | zero =>
    intro pid d depth q p hlk hd hle
    exact absurd hle (by have := climb_depth_lt hd; omega)
  | succ f ih =>
    intro pid d depth q p hlk hd hle
    have hlkS : (lookupPid tbl pid).isSome = true := by rw [hlk]; rfl
    have hppid : p.pid = pid := (lookupPid_eq_some hlk).2
    have hchild : ∀ k ∈ childrenOf tbl pid,
        parOf tbl k = some pid ∧ depthToRoot tbl k = some (d + 1) := by
      intro k hk
      have hpk := parOf_of_child hN hlkS hk
      exact ⟨hpk, depthToRoot_par hpk hd⟩
    rw [appendNode_unfold f depth hlk]
    have hflat :
        (((childrenOf tbl pid).flatMap
            (fun kid => appendNode tbl f kid (depth + 1))).filter
          (fun r => r.parent == some q)).map (fun r => r.pid)
        = (childrenOf tbl pid).flatMap
            (fun k => ((appendNode tbl f k (depth + 1)).filter
              (fun r => r.parent == some q)).map (fun r => r.pid)) := by
      rw [flatMap_filter, map_flatMap]
    have hkval : ∀ k ∈ childrenOf tbl pid, ∃ pk,
        lookupPid tbl k = some pk ∧ pk.parent = some pid := by
      intro k hk
      rcases parOf_elim (hchild k hk).1 with ⟨pk, hlkk, hpark, _⟩
      exact ⟨pk, hlkk, hpark⟩
    by_cases hqpid : q = pid
    · subst hqpid
      have hhead : (p.parent == some q) = false := by
        rcases hb : p.parent == some q with _ | _
        · rfl
        exfalso
        have hp2 : p.parent = some q := by simpa using hb
        have hpo : parOf tbl q = some q := parOf_intro hlk hp2 hlkS
        have := depthToRoot_par hpo hd
        have := climb_det hd this
        omega
      have hS : (hitDist tbl q q).isSome = true := by rw [hitDist_self]; rfl
      rw [if_pos hS]
      simp only [List.filter_cons]
      rw [if_neg (by simp [hhead])]
      rw [hflat]
      have hcong : ∀ k ∈ childrenOf tbl q,
          ((appendNode tbl f k (depth + 1)).filter
            (fun r => r.parent == some q)).map (fun r => r.pid) = [k] := by
        intro k hk
        rcases hkval k hk with ⟨pk, hlkk, hpark⟩
        rw [ih (depth + 1) q hlkk (hchild k hk).2 (by omega)]
        rw [if_neg ?_, if_pos (by rw [hpark]; simp)]
        intro hsome
        obtain ⟨j, hj⟩ := Option.isSome_iff_exists.1 hsome
        exact no_self_descendant hd (hchild k hk).1 hj
      rw [flatMap_congr hcong, flatMap_singleton_id]
    · rcases hhit : hitDist tbl q pid with _ | m
      · have hzero : ∀ k ∈ childrenOf tbl pid,
            ((appendNode tbl f k (depth + 1)).filter
              (fun r => r.parent == some q)).map (fun r => r.pid) = [] := by
          intro k hk
          rcases hkval k hk with ⟨pk, hlkk, hpark⟩
          rw [ih (depth + 1) q hlkk (hchild k hk).2 (by omega)]
          rw [if_neg ?_, if_neg ?_]
          · rw [hpark]
            simp only [beq_iff_eq, Option.some_inj]
            intro he
            exact hqpid he.symm
          · intro hsome
            obtain ⟨c, hc⟩ := Option.isSome_iff_exists.1 hsome
            have := hit_extend hc (hchild k hk).1 hd
            rw [hhit] at this
            exact Option.noConfusion this
        simp only [List.filter_cons]
        rcases hb : p.parent == some q with _ | _
        · rw [if_neg (by simp [hb])]
          rw [hflat, flatMap_eq_nil hzero]
          simp
        · rw [if_pos (by simp [hb])]
          rw [List.map_cons, hflat, flatMap_eq_nil hzero]
          simp [hppid]
      · rcases m with _ | m'
        · exact absurd (hitD_zero hhit) hqpid
        have hdq : depthToRoot tbl q = some (d + (m' + 1)) := hitD_depth hhit hd
        have hqS : (lookupPid tbl q).isSome = true := climb_lookup_isSome hdq
        have hhead : (p.parent == some q) = false := by
          rcases hb : p.parent == some q with _ | _
          · rfl
          exfalso
          have hp2 : p.parent = some q := by simpa using hb
          have hpo : parOf tbl pid = some q := parOf_intro hlk hp2 hqS
          have := depthToRoot_par hpo hdq
          have := climb_det hd this
          omega
        rw [if_pos (show ((some (m' + 1) : Option Nat)).isSome = true from rfl)]
        simp only [List.filter_cons]
        rw [if_neg (by simp [hhead])]
        rw [hflat]
        rcases hit_through_children hN hd hhit with ⟨k0, hk0mem, hk0par, hk0hit⟩
        have hother : ∀ k ∈ childrenOf tbl pid, k ≠ k0 →
            ((appendNode tbl f k (depth + 1)).filter
              (fun r => r.parent == some q)).map (fun r => r.pid) = [] := by
          intro k hk hne
          rcases hkval k hk with ⟨pk, hlkk, hpark⟩
          rw [ih (depth + 1) q hlkk (hchild k hk).2 (by omega)]
          rw [if_neg ?_, if_neg ?_]
          · rw [hpark]
            simp only [beq_iff_eq, Option.some_inj]
            intro he
            exact hqpid he.symm
          · intro hsome
            obtain ⟨a, ha⟩ := Option.isSome_iff_exists.1 hsome
            exact hne (hit_child_unique hd (hchild k hk).1 hk0par ha hk0hit)
        rw [flatMap_eq_single hk0mem hother (childrenOf_nodup hN pid)]
        rcases hkval k0 hk0mem with ⟨pk0, hlkk0, hpark0⟩
        rw [ih (depth + 1) q hlkk0 (hchild k0 hk0mem).2 (by omega)]
        have hS0 : (hitDist tbl q k0).isSome = true := by rw [hk0hit]; rfl
        rw [if_pos hS0]


/-! ## `build_process_tree`: emission count, records, root and sibling order -/

theorem build_count {tbl : List ProcessInfo}
    (hN : (tbl.map (fun p => p.pid)).Nodup)
    (hRes : ∀ p ∈ tbl, (depthToRoot tbl p.pid).isSome = true) (x : Nat) :
    ((build_process_tree tbl).map (fun r => r.pid)).count x
      = (tbl.map (fun r => r.pid)).count x := by
  unfold build_process_tree
  rw [map_flatMap, count_flatMap]
  have hmapeq :
      (rootsOf tbl).map
          (fun r => ((appendNode tbl tbl.length r 0).map (fun rec => rec.pid)).count x)
        = (rootsOf tbl).map (fun r => if (hitDist tbl x r).isSome = true then 1 else 0) := by
    apply List.map_congr_left
    intro r hr
    rcases root_facts hN hr with ⟨pr, hlkr, _, hdr, _⟩
    exact (appendNode_emit hN tbl.length 0 hdr (by omega)).1 x
  rw [hmapeq]
  by_cases hx : x ∈ tbl.map (fun p => p.pid)
  · rw [List.count_eq_one_of_mem hN hx]
    rcases List.mem_map.1 hx with ⟨p, hpmem, hppid⟩
    have hdx : (depthToRoot tbl x).isSome = true := by
      rw [← hppid]
      exact hRes p hpmem
    obtain ⟨e, he⟩ := Option.isSome_iff_exists.1 hdx
    rcases chain_root hN (show climb tbl tbl.length x = some e from he) with ⟨t, hhit, htroot⟩
    apply sum_ite_one (rootsOf_nodup hN) htroot
    · rw [hhit]; rfl
    · intro r hr hrs
      obtain ⟨a, ha⟩ := Option.isSome_iff_exists.1 hrs
      exact root_hit_unique hN hr htroot ha hhit
  · rw [List.count_eq_zero_of_not_mem hx]
    apply sum_ite_zero
    intro r hr hrs
    obtain ⟨j, hj⟩ := Option.isSome_iff_exists.1 hrs
    rcases root_facts hN hr with ⟨pr, hlkr, _, _, _⟩
    have hrmem : r ∈ tbl.map (fun p => p.pid) :=
      lookupPid_isSome_iff.1 (by rw [hlkr]; rfl)
    have hxr : x ≠ r := fun he => hx (he ▸ hrmem)
    have hpo : parOf tbl x = Option.none :=
      parOf_none_of_lookup_none (lookupPid_eq_none hx)
    rw [hitDist_none_of_no_par hxr hpo] at hj
    exact Option.noConfusion hj

theorem build_records {tbl : List ProcessInfo}
    (hN : (tbl.map (fun p => p.pid)).Nodup) :
    ∀ r ∈ build_process_tree tbl,
      depthToRoot tbl r.pid = some r.indent
      ∧ ∃ p, p ∈ tbl ∧ r = { p with indent := r.indent } := by
  intro r hr
  unfold build_process_tree at hr
  rcases List.mem_flatMap.1 hr with ⟨t, htmem, hrt⟩
  rcases root_facts hN htmem with ⟨pt, hlkt, _, hdt, _⟩
  obtain ⟨j, p', hhit, hlk', hrec, hdep⟩ :=
    (appendNode_emit hN tbl.length 0 hdt (by omega)).2 r hrt
  have hind : r.indent = j := by rw [hrec]; simp
  constructor
  · rw [hind]
    simpa using hdep
  · refine ⟨p', (lookupPid_eq_some hlk').1, ?_⟩
    rw [hind]
    simpa using hrec

theorem subtree_filter_root {tbl : List ProcessInfo}
    (hN : (tbl.map (fun p => p.pid)).Nodup) {r : Nat} (hr : r ∈ rootsOf tbl) :
    ((appendNode tbl tbl.length r 0).filter
      (fun rec => isRootB tbl rec)).map (fun rec => rec.pid) = [r] := by
  rcases root_facts hN hr with ⟨pr, hlkr, hrootr, hdr, _⟩
  have hrmem : r ∈ tbl.map (fun p => p.pid) :=
    lookupPid_isSome_iff.1 (by rw [hlkr]; rfl)
  have hlen : 0 < tbl.length := by
    have h1 := List.length_pos.2 (List.ne_nil_of_mem hrmem)
    simpa using h1
  have hprid : pr.pid = r := (lookupPid_eq_some hlkr).2
  rcases hf : tbl.length with _ | f
  · omega
  rw [appendNode_unfold f 0 hlkr]
  simp only [List.filter_cons]
  rw [if_pos (show isRootB tbl { pr with indent := 0 } = true from hrootr)]
  rw [List.map_cons]
  have hrest :
      (((childrenOf tbl r).flatMap (fun kid => appendNode tbl f kid (0 + 1))).filter
        (fun rec => isRootB tbl rec)) = [] := by
    rw [flatMap_filter]
    apply flatMap_eq_nil
    intro k hk
    rw [List.filter_eq_nil_iff]
    intro rec hrec
    have hpk := parOf_of_child hN (by rw [hlkr]; rfl) hk
    have hdk := depthToRoot_par hpk hdr
    obtain ⟨j, p'', hhit'', hlk'', hrec'', hdep''⟩ :=
      (appendNode_emit hN f (0 + 1) hdk (by omega)).2 rec hrec
    intro hrootrec
    have hrp : isRootB tbl p'' = true := by
      rw [hrec''] at hrootrec
      exact hrootrec
    have h0 := depthToRoot_root hlk'' hrp
    have := climb_det h0 hdep''
    omega
  rw [hrest]
  simp [hprid]

theorem build_roots_list {tbl : List ProcessInfo}
    (hN : (tbl.map (fun p => p.pid)).Nodup) :
    ((build_process_tree tbl).filter (fun rec => isRootB tbl rec)).map
      (fun rec => rec.pid) = rootsOf tbl := by
  unfold build_process_tree
  rw [flatMap_filter, map_flatMap]
  rw [flatMap_congr (fun r hr => subtree_filter_root hN hr), flatMap_singleton_id]

theorem build_siblings {tbl : List ProcessInfo}
    (hN : (tbl.map (fun p => p.pid)).Nodup)
    (hRes : ∀ p ∈ tbl, (depthToRoot tbl p.pid).isSome = true) (q : Nat) :
    (((build_process_tree tbl).filter (fun rec => rec.parent == some q)).map
      (fun rec => rec.pid)).Pairwise (· ≤ ·) := by
  unfold build_process_tree
  rw [flatMap_filter, map_flatMap]
  by_cases hq : (lookupPid tbl q).isSome = true
  · obtain ⟨pq, hpq⟩ := Option.isSome_iff_exists.1 hq
    have hqmem := lookupPid_eq_some hpq
    have hdq : (depthToRoot tbl q).isSome = true := by
      have h1 := hRes pq hqmem.1
      rw [hqmem.2] at h1
      exact h1
    obtain ⟨e, he⟩ := Option.isSome_iff_exists.1 hdq
    rcases chain_root hN (show climb tbl tbl.length q = some e from he) with ⟨t, hhit, htroot⟩
    have hsingle :
        (rootsOf tbl).flatMap
            (fun r => ((appendNode tbl tbl.length r 0).filter
              (fun rec => rec.parent == some q)).map (fun rec => rec.pid))
          = ((appendNode tbl tbl.length t 0).filter
              (fun rec => rec.parent == some q)).map (fun rec => rec.pid) := by
      apply flatMap_eq_single htroot ?_ (rootsOf_nodup hN)
      intro r hr hne
      rcases root_facts hN hr with ⟨pr, hlkr, hrootr, hdr, _⟩
      rw [appendNode_sib hN tbl.length 0 q hlkr hdr (by omega)]
      rw [if_neg ?_, if_neg ?_]
      · rcases hpp : pr.parent with _ | pp
        · simp
        · simp only [beq_iff_eq, Option.some_inj]
          intro he2
          subst he2
          simp only [isRootB, hpp] at hrootr
          rw [Option.isNone_iff_eq_none] at hrootr
          rw [hrootr] at hq
          simp at hq
      · intro hrs
        obtain ⟨a, ha⟩ := Option.isSome_iff_exists.1 hrs
        exact hne (root_hit_unique hN hr htroot ha hhit)
    rw [hsingle]
    rcases root_facts hN htroot with ⟨pt, hlkt, _, hdt, _⟩
    rw [appendNode_sib hN tbl.length 0 q hlkt hdt (by omega)]
    rw [if_pos (by rw [hhit]; rfl)]
    exact childrenOf_sorted tbl q
  · have hqe : lookupPid tbl q = Option.none := by
      rcases hlq : lookupPid tbl q with _ | pq
      · rfl
      · exact absurd (by rw [hlq]; rfl) hq
    have hsmall : ∀ r ∈ rootsOf tbl,
        ((appendNode tbl tbl.length r 0).filter
          (fun rec => rec.parent == some q)).map (fun rec => rec.pid) = []
        ∨ ((appendNode tbl tbl.length r 0).filter
          (fun rec => rec.parent == some q)).map (fun rec => rec.pid) = [r] := by
      intro r hr
      rcases root_facts hN hr with ⟨pr, hlkr, hrootr, hdr, _⟩
      rw [appendNode_sib hN tbl.length 0 q hlkr hdr (by omega)]
      rw [if_neg ?_]
      · rcases hb : pr.parent == some q with _ | _
        · exact Or.inl (by simp)
        · exact Or.inr (by simp)
      · intro hrs
        obtain ⟨j, hj⟩ := Option.isSome_iff_exists.1 hrs
        have hxr : q ≠ r := by
          intro he2
          rw [he2, hlkr] at hqe
          exact Option.noConfusion hqe
        have hpo : parOf tbl q = Option.none := parOf_none_of_lookup_none hqe
        rw [hitDist_none_of_no_par hxr hpo] at hj
        exact Option.noConfusion hj
    exact List.Pairwise.sublist (flatMap_sublist_of_single hsmall) (rootsOf_sorted tbl)

/-! ## Claim C2 — the amended theorem -/

/-- C2 (amended): over a process table with pairwise-distinct pids in which
every record's parent chain resolves to a root (no parent cycles — the
counterexample shows cycle members are silently dropped, not promoted to
roots), tree-mode ordering emits exactly the N records of the table, each
exactly once (the emitted pid list is a permutation of the table's pid
list); every emitted record is its table record with `indent` set to the
number of valid ancestor links from it to a root (`depthToRoot`); the roots
appear in ascending pid order; and within each sibling group the children
appear in ascending pid order. -/
theorem C2_tree_traversal (tbl : List ProcessInfo)
    (hN : (tbl.map (fun p => p.pid)).Nodup)
    (hRes : ∀ p ∈ tbl, (depthToRoot tbl p.pid).isSome = true) :
    ((build_process_tree tbl).map (fun r => r.pid)).Perm (tbl.map (fun r => r.pid))
    ∧ (build_process_tree tbl).length = tbl.length
    ∧ (∀ r ∈ build_process_tree tbl,
        depthToRoot tbl r.pid = some r.indent
        ∧ ∃ p, p ∈ tbl ∧ r = { p with indent := r.indent })
    ∧ (((build_process_tree tbl).filter (fun r => isRootB tbl r)).map
        (fun r => r.pid)).Pairwise (· ≤ ·)
    ∧ (∀ q : Nat, (((build_process_tree tbl).filter
        (fun r => r.parent == some q)).map (fun r => r.pid)).Pairwise (· ≤ ·)) := by
  have hperm : ((build_process_tree tbl).map (fun r => r.pid)).Perm
      (tbl.map (fun r => r.pid)) :=
    List.perm_iff_count.2 (fun x => build_count hN hRes x)
  refine ⟨hperm, ?_, build_records hN, ?_, build_siblings hN hRes⟩
  · have h1 := hperm.length_eq
    simpa using h1
  · rw [build_roots_list hN]
    exact rootsOf_sorted tbl

theorem C2_tree_traversal_witness :
    (forestTbl.map (fun p => p.pid)).Nodup
    ∧ (∀ p ∈ forestTbl, (depthToRoot forestTbl p.pid).isSome = true)
    ∧ (((build_process_tree forestTbl).map (fun r => r.pid)).Perm
        (forestTbl.map (fun r => r.pid))
      ∧ (build_process_tree forestTbl).length = forestTbl.length
      ∧ (∀ r ∈ build_process_tree forestTbl,
          depthToRoot forestTbl r.pid = some r.indent
          ∧ ∃ p, p ∈ forestTbl ∧ r = { p with indent := r.indent })
      ∧ (((build_process_tree forestTbl).filter
          (fun r => isRootB forestTbl r)).map (fun r => r.pid)).Pairwise (· ≤ ·)
      ∧ (∀ q : Nat, (((build_process_tree forestTbl).filter
          (fun r => r.parent == some q)).map (fun r => r.pid)).Pairwise (· ≤ ·))) :=
  ⟨by decide, by decide, C2_tree_traversal forestTbl (by decide) (by decide)⟩

end SysMon
